import Mathlib

/-!
Shallow embedding of the context-please code-search engine, for checking the
natural-language specification against the source.

Conventions used throughout:

* JavaScript `Map` objects are modelled as association lists in insertion
  order (`List (κ × ν)` with `Nodup` keys); `Map.set` on an existing key keeps
  the key's position, a new key is appended at the end, `Map.forEach` iterates
  in insertion order — exactly the JS semantics.
* JavaScript numbers are modelled as `ℚ` (scores, progress) or `ℕ`/`ℤ`
  (counts, HTTP statuses).  The transcendental functions `Math.log` and
  `Math.sqrt` are not rational, so functions that call them take the function
  as an explicit parameter; no statement proved here depends on its values.
* `Array.prototype.sort` with comparator `(a, b) => b.val - a.val` is a
  stable descending sort (ES2019 guarantees stability).  A stable sort is
  determined uniquely by the induced preorder, so it is modelled with
  Mathlib's `List.insertionSort` under the relation `a.2 ≥ b.2`, which is
  stable in the same sense (earlier tied elements stay earlier).
* Fallible operations (`throw` in TS) are modelled with `Except String`.
-/

/-- Decidable equality for `Except`, so that witnesses and counterexamples
can evaluate fallible results on concrete inputs. -/
instance {ε α : Type} [DecidableEq ε] [DecidableEq α] : DecidableEq (Except ε α) := fun x y =>
  match x, y with
  | .ok a, .ok b =>
    if h : a = b then isTrue (by rw [h])
    else isFalse (fun hh => by injection hh; exact h (by assumption))
  | .error a, .error b =>
    if h : a = b then isTrue (by rw [h])
    else isFalse (fun hh => by injection hh; exact h (by assumption))
  | .ok _, .error _ => isFalse (fun hh => by injection hh)
  | .error _, .ok _ => isFalse (fun hh => by injection hh)

/-! ## Generic helpers: JS-style association lists and strings -/

/-- Look up a key in an insertion-ordered association list (JS `Map.get`). -/
def jsGet {ν : Type} (m : List (String × ν)) (k : String) : Option ν :=
  (m.find? (fun e => e.1 = k)).map Prod.snd

/-- Membership test (JS `Map.has`). -/
def jsHas {ν : Type} (m : List (String × ν)) (k : String) : Bool :=
  (jsGet m k).isSome

/-- JS `Map.set`: overwrite in place if the key exists (keeping its position),
otherwise append at the end. -/
def jsSet {ν : Type} (m : List (String × ν)) (k : String) (v : ν) : List (String × ν) :=
  if jsHas m k then m.map (fun e => if e.1 = k then (e.1, v) else e) else m ++ [(k, v)]

/-- First-occurrence deduplication: the iteration order of a JS `Set` built
from a list (`new Set(xs)` keeps the first occurrence of each element). -/
def jsSetOrder : List String → List String
  | [] => []
  | x :: xs => x :: (jsSetOrder xs).filter (fun y => y ≠ x)

/-- Substring test on the underlying character list (JS `String.includes`). -/
def containsSubstr (s pat : String) : Bool :=
  (List.range (s.data.length + 1)).any (fun i => pat.data.isPrefixOf (s.data.drop i))

/-- Characters matched by the regex class `\w`, i.e. `[A-Za-z0-9_]`. -/
def isWordChar (c : Char) : Bool :=
  (c.isUpper || c.isLower || c.isDigit) || c = '_'

/-- Characters matched by the regex class `\s` (the ASCII ones; the unicode
white-space code points play no role in this code base). -/
def isSpaceChar (c : Char) : Bool :=
  c = ' ' || c = '\t' || c = '\n' || c = '\r' || c = '\x0b' || c = '\x0c'

/-- JS `String.prototype.toLowerCase`, faithful on ASCII input. -/
def jsToLower (s : String) : String :=
  ⟨s.data.map Char.toLower⟩

/-- JS `String.prototype.trim` (remove leading and trailing whitespace). -/
def jsTrim (s : String) : String :=
  ⟨((s.data.dropWhile isSpaceChar).reverse.dropWhile isSpaceChar).reverse⟩

/-- Worker for `jsSplitWs`: `some acc` means "inside a word whose reversed
characters so far are `acc`", `none` means "inside a separator run". -/
def jsSplitWsGo : Option (List Char) → List Char → List String
  | some acc, [] => [⟨acc.reverse⟩]
  | none, [] => [""]
  | some acc, c :: rest =>
    if isSpaceChar c then ⟨acc.reverse⟩ :: jsSplitWsGo none rest
    else jsSplitWsGo (some (c :: acc)) rest
  | none, c :: rest =>
    if isSpaceChar c then jsSplitWsGo none rest
    else jsSplitWsGo (some [c]) rest

/-- JS `"text".split(/\s+/)` on a character list.  JS regex split keeps an
empty string before a separator match at the start of the input and after a
separator match at the end, and `"".split` is `[""]`; this quirk is modelled
faithfully. -/
def jsSplitWs (cs : List Char) : List String :=
  jsSplitWsGo (some []) cs

/-- The stable descending sort used to model `arr.sort((a, b) => b.val - a.val)`
on pairs carrying a rational score in the second component. -/
def sortByScoreDesc {α : Type} (l : List (α × ℚ)) : List (α × ℚ) :=
  l.insertionSort (fun a b => a.2 ≥ b.2)

/-! ## SimpleBM25 (packages/core/src/vectordb/sparse/simple-bm25.ts)

State and operations of the `SimpleBM25` class.  `vocabulary` and `idf` are
the two insertion-ordered maps learned from the corpus. -/

structure SimpleBM25 where
  k1 : ℚ
  b : ℚ
  minTermLength : ℕ
  stopWords : List String
  vocabulary : List (String × ℕ)
  idf : List (String × ℚ)
  avgDocLength : ℚ
  trained : Bool
deriving DecidableEq

/-- Constructor defaults (`k1 = 1.2`, `b = 0.75`, `minTermLength = 2`, empty
stop words, untrained). -/
def SimpleBM25.mk0 (k1 : ℚ := 12/10) (b : ℚ := 3/4) (minTermLength : ℕ := 2)
    (stopWords : List String := []) : SimpleBM25 :=
  { k1 := k1, b := b, minTermLength := minTermLength, stopWords := stopWords,
    vocabulary := [], idf := [], avgDocLength := 0, trained := false }

/-- `SimpleBM25.tokenize`: lower-case, replace every character that is neither
`\w` nor `\s` by a space (`.replace(/[^\w\s]/g, ' ')`), split on `/\s+/`, and
keep only the tokens of length at least `minTermLength` that are not stop
words. -/
def SimpleBM25.tokenize (m : SimpleBM25) (text : String) : List String :=
  let cleaned := (jsToLower text).data.map
    (fun c => if isWordChar c || isSpaceChar c then c else ' ')
  (jsSplitWs cleaned).filter
    (fun t => decide (m.minTermLength ≤ t.length) && ! m.stopWords.contains t)

/-- `SimpleBM25.calculateTermFrequency`: fold the token list into an
insertion-ordered frequency map. -/
def calculateTermFrequency (tokens : List String) : List (String × ℕ) :=
  tokens.foldl (fun tf t => jsSet tf t ((jsGet tf t).getD 0 + 1)) []

/-- Builds the document-frequency map of `learn`: for each document, each
distinct token (a JS `Set` keeps first-occurrence order) bumps the count. -/
def docFreqOf (tokenizedDocs : List (List String)) : List (String × ℕ) :=
  tokenizedDocs.foldl
    (fun df tokens =>
      (jsSetOrder tokens).foldl (fun df' t => jsSet df' t ((jsGet df' t).getD 0 + 1)) df)
    []

/-- `SimpleBM25.learn`.  The parameter `log` abstracts `Math.log` (a
transcendental function on the reals); every statement proved below holds for
every choice of `log`.  Throws on an empty corpus, otherwise rebuilds
`vocabulary` (terms in document-frequency-map insertion order, indices
`0, 1, 2, …`), `idf` (`log ((N − df + 0.5) / (df + 0.5))`), `avgDocLength`,
and sets `trained := true`. -/
def SimpleBM25.learn (log : ℚ → ℚ) (m : SimpleBM25) (documents : List String) :
    Except String SimpleBM25 :=
  if documents.length = 0 then
    .error "Cannot learn from empty corpus"
  else
    let tokenizedDocs := documents.map m.tokenize
    let totalLength : ℕ := tokenizedDocs.foldl (fun s tk => s + tk.length) 0
    let avgDocLength : ℚ := (totalLength : ℚ) / (tokenizedDocs.length : ℚ)
    let docFreq := docFreqOf tokenizedDocs
    let numDocs : ℚ := (documents.length : ℚ)
    let vocabulary := docFreq.enum.map (fun e => (e.2.1, e.1))
    let idf := docFreq.map
      (fun e => (e.1, log ((numDocs - (e.2 : ℚ) + 1/2) / ((e.2 : ℚ) + 1/2))))
    .ok { m with vocabulary := vocabulary, idf := idf,
                 avgDocLength := avgDocLength, trained := true }

/-- Sparse vector: two parallel arrays. -/
structure SparseVector where
  indices : List ℕ
  values : List ℚ
deriving DecidableEq

/-- Options of `SimpleBM25.generate` (`SparseVectorConfig`; the `types.ts`
declaration only carries these three optional fields, per §4.3 of the spec). -/
structure SparseVectorConfig where
  maxTerms : Option ℕ := none
  minScore : Option ℚ := none
  normalize : Bool := false

/-- The per-term BM25 contribution of `generate`:
`idf · tf·(k1+1) / (tf + k1·(1 − b + b·docLength/avgDocLength))`. -/
def bm25Contribution (m : SimpleBM25) (docLength : ℚ) (idfScore : ℚ) (tf : ℕ) : ℚ :=
  idfScore * (((tf : ℚ) * (m.k1 + 1)) /
    ((tf : ℚ) + m.k1 * (1 - m.b + m.b * docLength / m.avgDocLength)))

/-- `SimpleBM25.generate`.  The parameter `sqrt` abstracts `Math.sqrt` (used
only by the optional L2 normalisation); every statement proved below holds for
every choice of `sqrt`.  Mirrors the source: throw if untrained; walk the
term-frequency map in insertion order, skipping out-of-vocabulary terms and
scores below `minScore`; if `maxTerms` is set and exceeded, stable-sort by
score descending and keep the first `maxTerms` (`splice`); optionally divide
all values by the L2 norm.  The source never re-sorts `indices` ascending. -/
def SimpleBM25.generate (sqrt : ℚ → ℚ) (m : SimpleBM25) (text : String)
    (config : SparseVectorConfig := {}) : Except String SparseVector :=
  if m.trained = false then
    .error "BM25 generator must be trained before generating vectors. Call learn() first."
  else
    let tokens := m.tokenize text
    let termFreq := calculateTermFrequency tokens
    let docLength : ℚ := (tokens.length : ℚ)
    let pairs : List (ℕ × ℚ) := termFreq.filterMap (fun e =>
      match jsGet m.vocabulary e.1, jsGet m.idf e.1 with
      | some vocabIndex, some idfScore =>
        let score := bm25Contribution m docLength idfScore e.2
        match config.minScore with
        | some ms => if score < ms then none else some (vocabIndex, score)
        | none => some (vocabIndex, score)
      | _, _ => none)
    let pairs' : List (ℕ × ℚ) :=
      match config.maxTerms with
      | some mt => if mt < pairs.length then (sortByScoreDesc pairs).take mt else pairs
      | none => pairs
    let values := pairs'.map Prod.snd
    let values' :=
      if config.normalize ∧ 0 < values.length then
        let norm := sqrt (values.foldl (fun s v => s + v * v) 0)
        values.map (fun v => v / norm)
      else values
    .ok { indices := pairs'.map Prod.fst, values := values' }

/-- `SimpleBM25.isTrained`. -/
def SimpleBM25.isTrained (m : SimpleBM25) : Bool :=
  m.trained

/-- `SimpleBM25.getVocabularySize`. -/
def SimpleBM25.getVocabularySize (m : SimpleBM25) : ℕ :=
  m.vocabulary.length

/-- States of a `SimpleBM25` object reachable through its public interface:
freshly constructed (any configuration), or the successful result of `learn`
(for any corpus and any value of `Math.log`); `generate` and the getters do
not mutate the object. -/
inductive SimpleBM25.Reachable : SimpleBM25 → Prop
  | construct (k1 b : ℚ) (minTermLength : ℕ) (stopWords : List String) :
      SimpleBM25.Reachable (SimpleBM25.mk0 k1 b minTermLength stopWords)
  | learn (log : ℚ → ℚ) (documents : List String) (m m' : SimpleBM25) :
      SimpleBM25.Reachable m → m.learn log documents = .ok m' →
      SimpleBM25.Reachable m'

/-! ## Reciprocal Rank Fusion (FaissVectorDatabase.applyRRF)

Both variants of the FAISS backend in the repository implement `applyRRF`
identically.  `denseResults` and `sparseResults` are JS `Map`s from document
id to branch score, modelled as insertion-ordered association lists. -/

/-- The rank computation of `applyRRF`: stable-sort the map entries by score
descending and take the 1-based position of the document
(`.sort((a, b) => b[1] - a[1]).findIndex(([id]) => id === docId) + 1`). -/
def jsFindRank (d : String) (entries : List (String × ℚ)) : ℕ :=
  (sortByScoreDesc entries).findIdx (fun e => e.1 = d) + 1

/-- The fused score accumulated for one document: each branch containing the
document contributes `1 / (k + rank)`. -/
def rrfScoreOf (k : ℚ) (dense sparse : List (String × ℚ)) (d : String) : ℚ :=
  (if jsHas dense d then 1 / (k + (jsFindRank d dense : ℚ)) else 0) +
  (if jsHas sparse d then 1 / (k + (jsFindRank d sparse : ℚ)) else 0)

/-- `FaissVectorDatabase.applyRRF`.  `kOption` models
`options?.rerank?.params?.k || 60` (the `||` falls back to 60 on a missing
*or zero* k).  `collectionDocIds` are the ids present in
`collection.documents`; ids without a stored document are skipped when the
sorted score list is converted to results. -/
def applyRRF (kOption : Option ℚ) (collectionDocIds : List String)
    (dense sparse : List (String × ℚ)) : List (String × ℚ) :=
  let k : ℚ := match kOption with | some v => if v = 0 then 60 else v | none => 60
  let allDocIds := jsSetOrder (dense.map Prod.fst ++ sparse.map Prod.fst)
  let rrfScores := allDocIds.map (fun d => (d, rrfScoreOf k dense sparse d))
  (sortByScoreDesc rrfScores).filter (fun e => collectionDocIds.contains e.1)

/-! ## Gemini embedding retry layer
(packages/core/src/embedding/gemini-embedding.ts)

Errors thrown by the provider are JS values; `isRetryableError` inspects the
optional `code`, `status` and `message` properties of object errors.  The
`es-toolkit` `retry` combinator performs the initial attempt plus up to
`maxRetries` retries (the repository's own test pins `maxRetries = 1` to two
calls in total), waiting `delay(attempts)` after the failed attempt number
`attempts` (0-based). -/

inductive JsError where
  | nonObject
  | obj (code : Option String) (status : Option ℤ) (message : Option String)
deriving DecidableEq

def networkErrorCodes : List String :=
  ["ECONNREFUSED", "ETIMEDOUT", "ENOTFOUND", "EAI_AGAIN"]

def retryableStatusCodes : List ℤ :=
  [429, 500, 502, 503, 504]

def retryablePatterns : List String :=
  ["rate limit", "quota exceeded", "service unavailable", "timeout", "connection"]

/-- `GeminiEmbedding.isRetryableError`: network error codes, the five listed HTTP
status codes, or a lower-cased message containing one of the patterns. -/
def isRetryableError : JsError → Bool
  | .nonObject => false
  | .obj code status message =>
    if (code.map (fun c => networkErrorCodes.contains c)).getD false then
      true
    else if (status.map (fun s => retryableStatusCodes.contains s)).getD false then
      true
    else
      let errorMessage := jsToLower (message.getD "")
      retryablePatterns.any (fun p => containsSubstr errorMessage p)

/-- The backoff of `executeWithRetry`:
`Math.min(baseDelay * Math.pow(2, attempts), 10000)`. -/
def backoffDelay (baseDelay : ℕ) (attempts : ℕ) : ℕ :=
  min (baseDelay * 2 ^ attempts) 10000

/-- Result of `executeWithRetry`, together with the list of waits that were
performed (in chronological order). -/
inductive RetryOutcome (α : Type) where
  | ok (v : α) (delays : List ℕ)
  | nonRetryable (e : JsError) (delays : List ℕ)
  | exhausted (e : JsError) (delays : List ℕ)
deriving DecidableEq

def runRetryAux {α : Type} (baseDelay : ℕ) (attemptResult : ℕ → Except JsError α) :
    (remaining : ℕ) → (i : ℕ) → (ds : List ℕ) → RetryOutcome α
  | remaining, i, ds =>
    match attemptResult i with
    | .ok v => .ok v ds.reverse
    | .error e =>
      if isRetryableError e then
        match remaining with
        | 0 => .exhausted e ds.reverse
        | r + 1 => runRetryAux baseDelay attemptResult r (i + 1) (backoffDelay baseDelay i :: ds)
      else .nonRetryable e ds.reverse

/-- `GeminiEmbedding.executeWithRetry` over an abstract sequence of attempt
outcomes (`attemptResult i` is what the i-th call of the wrapped operation
does).  A non-retryable error aborts immediately; a retryable error waits
`backoffDelay baseDelay i` and retries, up to `maxRetries` retries after the
initial attempt. -/
def executeWithRetry {α : Type} (maxRetries baseDelay : ℕ)
    (attemptResult : ℕ → Except JsError α) : RetryOutcome α :=
  runRetryAux baseDelay attemptResult maxRetries 0 []

/-- Delay inserted between per-item fallback calls of `embedBatch`. -/
def FALLBACK_DELAY_MS : ℕ := 100

/-- Overall result of `embedBatch`: either the vectors (with the full trace of
waits) or the wrapped failure of the first item whose individual fallback
embedding also failed. -/
inductive EmbedBatchResult (α : Type) where
  | ok (vs : List α) (delays : List ℕ)
  | bothFailed (cause : JsError) (delays : List ℕ)
deriving DecidableEq

def runFallbackAux {α : Type} (maxRetries baseDelay : ℕ)
    (itemAttempt : ℕ → ℕ → Except JsError α) :
    List ℕ → List α → List ℕ → EmbedBatchResult α
  | [], acc, ds => .ok acc.reverse ds.reverse
  | i :: rest, acc, ds =>
    let ds1 := if 0 < i then FALLBACK_DELAY_MS :: ds else ds
    match executeWithRetry maxRetries baseDelay (itemAttempt i) with
    | .ok v ivds => runFallbackAux maxRetries baseDelay itemAttempt rest (v :: acc)
        (ivds.reverse ++ ds1)
    | .nonRetryable e ivds => .bothFailed e (ds1.reverse ++ ivds)
    | .exhausted e ivds => .bothFailed e (ds1.reverse ++ ivds)

/-- `GeminiEmbedding.embedBatch` over abstract attempt outcomes:
`batchAttempt i` is the result of the i-th batch call, `itemAttempt i j` the
result of the j-th call of the individual `embed` for item `i`, and `n` the
number of texts.  The batch call runs under `executeWithRetry`; if it fails
(non-retryable, or retryable with retries exhausted), the items are embedded
one by one in order — each again under `executeWithRetry` — with a
`FALLBACK_DELAY_MS` wait before every item except the first. -/
def embedBatch {α : Type} (maxRetries baseDelay : ℕ)
    (batchAttempt : ℕ → Except JsError (List α))
    (itemAttempt : ℕ → ℕ → Except JsError α) (n : ℕ) : EmbedBatchResult α :=
  match executeWithRetry maxRetries baseDelay batchAttempt with
  | .ok vs ds => .ok vs ds
  | .nonRetryable _ ds => runFallbackAux maxRetries baseDelay itemAttempt (List.range n) [] ds.reverse
  | .exhausted _ ds => runFallbackAux maxRetries baseDelay itemAttempt (List.range n) [] ds.reverse

/-! ## FAISS backend delete (FaissVectorDatabase.delete, current variant)

The current FAISS implementation rejects every `delete` call; the collection
is never touched.  (`ensureLoaded` hydrates the collection from disk before
the throw; the hydrated contents are irrelevant because the method throws
unconditionally right after, so the model keeps the in-memory collection map
and requires the collection to be present.) -/

structure FaissCollection where
  documentIds : List String
  isHybrid : Bool
deriving DecidableEq

/-- The error message thrown by `FaissVectorDatabase.delete`. -/
def faissUnsupportedDeletionMsg (collectionName : String) (ids : List String) : String :=
  "FAISS does not support document deletion. " ++
  "To remove documents from collection '" ++ collectionName ++ "', you must:\n" ++
  "  1. Drop the collection using dropCollection()\n" ++
  "  2. Recreate it using createCollection() or createHybridCollection()\n" ++
  "  3. Re-insert all documents except the ones you want to delete\n\n" ++
  "Attempted to delete document IDs: " ++ String.intercalate ", " ids

/-- `FaissVectorDatabase.delete`: after `ensureLoaded`, throw unconditionally.
The state is returned alongside the outcome to make explicit that nothing is
removed on any path. -/
def faissDelete (collections : List (String × FaissCollection))
    (collectionName : String) (ids : List String) :
    Except String Unit × List (String × FaissCollection) :=
  if jsHas collections collectionName then
    (.error (faissUnsupportedDeletionMsg collectionName ids), collections)
  else
    (.error ("Collection " ++ collectionName ++ " does not exist"), collections)

/-! ## QdrantVectorDatabase (packages/core/src/vectordb/qdrant-vectordb.ts) -/

/-- Documents as passed to `insert`/`insertHybrid` (the fields used by the
modelled operations). -/
structure VectorDocument where
  id : String
  vector : List ℚ
  content : String
  relativePath : String
  startLine : ℤ
  endLine : ℤ
  fileExtension : String
deriving DecidableEq

/-- A stored point: named dense + sparse vectors plus the payload fields. -/
structure QdrantPoint where
  denseVector : List ℚ
  sparseVector : SparseVector
  payload : List (String × String)
deriving DecidableEq

/-- Payload built by `insert`/`insertHybrid` for one document (`metadata` is
held as an opaque serialised string by the caller; it plays no role in the
claims and is omitted). -/
def qdrantPayloadOf (doc : VectorDocument) : List (String × String) :=
  [("content", doc.content), ("relativePath", doc.relativePath),
   ("startLine", toString doc.startLine), ("endLine", toString doc.endLine),
   ("fileExtension", doc.fileExtension)]

/-- `QdrantVectorDatabase.insertHybrid`: refuse with an instructive error when
the internal BM25 generator is untrained — before any sparse vector is
generated and before the upsert; otherwise generate one sparse vector per
document (plain `generate`, no options) and upsert all points.  The returned
pair contains the (unchanged) BM25 model, showing that insertion never trains
it, and the new collection contents. -/
def QdrantVectorDatabase.insertHybrid (sqrt : ℚ → ℚ) (bm25 : SimpleBM25)
    (collection : List (String × QdrantPoint)) (documents : List VectorDocument) :
    Except String (SimpleBM25 × List (String × QdrantPoint)) :=
  if bm25.isTrained = false then
    .error "BM25 generator is not trained. The caller must explicitly train it via `getBM25Generator().learn(corpus)` before calling `insertHybrid`."
  else do
    let sparseVectors ← documents.mapM (fun doc => bm25.generate sqrt doc.content)
    let points := (documents.zip sparseVectors).map (fun e =>
      (e.1.id, { denseVector := e.1.vector, sparseVector := e.2,
                 payload := qdrantPayloadOf e.1 : QdrantPoint }))
    .ok (bm25, points.foldl (fun col p => jsSet col p.1 p.2) collection)

/-- Qdrant filters produced by `parseFilterExpression`: a single `must` clause
with either a keyword match or an any-of match. -/
inductive QdrantFilter where
  | matchKeyword (key : String) (value : String)
  | matchAny (key : String) (values : List String)
deriving DecidableEq

/-- Server-side semantics of the two filter shapes on a point payload. -/
def qdrantFilterMatches (f : QdrantFilter) (payload : List (String × String)) : Bool :=
  match f with
  | .matchKeyword key value => jsGet payload key = some value
  | .matchAny key values =>
    match jsGet payload key with
    | some v => values.contains v
    | none => false

/-- Anchored match of the regex `/(\w+)\s+in\s+\[(.*)\]/` at the start of
`cs`, returning (group 1, group 2).  The adjacent pieces of the pattern have
disjoint character classes (`\w`, `\s`, literals), so greedy matching without
backtracking is exact; `.` does not match a newline, and the greedy `(.*)`
extends to the last `]` before the next newline. -/
def jsMatchInAt (cs : List Char) : Option (String × String) :=
  let w := cs.takeWhile isWordChar
  let r1 := cs.dropWhile isWordChar
  if w.isEmpty then none
  else
    let s1 := r1.takeWhile isSpaceChar
    let r2 := r1.dropWhile isSpaceChar
    if s1.isEmpty then none
    else
      match r2 with
      | 'i' :: 'n' :: r3 =>
        let s2 := r3.takeWhile isSpaceChar
        let r4 := r3.dropWhile isSpaceChar
        if s2.isEmpty then none
        else
          match r4 with
          | '[' :: r5 =>
            let line := r5.takeWhile (fun c => c ≠ '\n')
            let inner := (line.reverse.dropWhile (fun c => c ≠ ']')).reverse
            match inner with
            | [] => none
            | _ => some (⟨w⟩, ⟨inner.dropLast⟩)
          | _ => none
      | _ => none

/-- JS `expr.match(/(\w+)\s+in\s+\[(.*)\]/)`: the match at the leftmost
starting position that admits one. -/
def jsMatchIn (s : String) : Option (String × String) :=
  go s.data
where
  go : List Char → Option (String × String)
    | [] => none
    | c :: rest =>
      match jsMatchInAt (c :: rest) with
      | some r => some r
      | none => go rest

/-- Anchored match of the tail `/\s*['"]?([^'"]+)['"]?/` (the part of the
equality pattern after `==`), returning group 2.  Greedy `\s*` backtracks into
`[^'"]+` (a space is not a quote), which makes the pattern fail only when no
whitespace precedes and the remainder is empty or starts with a quote followed
by no non-quote character; when it backtracks one space, group 2 is that
single space. -/
def jsMatchEqTail (t : List Char) : Option (List Char) :=
  let ws := t.takeWhile isSpaceChar
  let u := t.dropWhile isSpaceChar
  match u with
  | [] => if ws.isEmpty then none else some [' ']
  | c :: rest =>
    if c = '\'' ∨ c = '"' then
      let body := rest.takeWhile (fun d => d ≠ '\'' ∧ d ≠ '"')
      if body.isEmpty then (if ws.isEmpty then none else some [' ']) else some body
    else
      some ((c :: rest).takeWhile (fun d => d ≠ '\'' ∧ d ≠ '"'))

/-- Anchored match of `/(\w+)\s*==\s*['"]?([^'"]+)['"]?/` at the start of
`cs`. -/
def jsMatchEqAt (cs : List Char) : Option (String × String) :=
  let w := cs.takeWhile isWordChar
  let r1 := cs.dropWhile isWordChar
  if w.isEmpty then none
  else
    match r1.dropWhile isSpaceChar with
    | '=' :: '=' :: r3 =>
      match jsMatchEqTail r3 with
      | some body => some (⟨w⟩, ⟨body⟩)
      | none => none
    | _ => none

/-- JS `expr.match(/(\w+)\s*==\s*['"]?([^'"]+)['"]?/)`: leftmost match. -/
def jsMatchEq (s : String) : Option (String × String) :=
  go s.data
where
  go : List Char → Option (String × String)
    | [] => none
    | c :: rest =>
      match jsMatchEqAt (c :: rest) with
      | some r => some r
      | none => go rest

/-- Worker for `jsSplitComma` (accumulates the current piece reversed). -/
def jsSplitCommaGo (acc : List Char) : List Char → List String
  | [] => [⟨acc.reverse⟩]
  | c :: rest =>
    if c = ',' then ⟨acc.reverse⟩ :: jsSplitCommaGo [] rest
    else jsSplitCommaGo (c :: acc) rest

/-- JS `str.split(',')` (literal separator; `"".split(',')` is `[""]`). -/
def jsSplitComma (cs : List Char) : List String :=
  jsSplitCommaGo [] cs

/-- JS `v.replace(/['"]/g, '')`. -/
def stripQuotes (s : String) : String :=
  ⟨s.data.filter (fun c => c ≠ '\'' ∧ c ≠ '"')⟩

/-- `QdrantVectorDatabase.parseFilterExpression`: recognise
`field in [...]` (checked first, via an `includes(' in ')` guard) and
`field == value`; on anything else log a warning and return `undefined`
(here: `none`), i.e. drop the filter. -/
def parseFilterExpression (expr : String) : Option QdrantFilter :=
  if containsSubstr expr " in " then
    match jsMatchIn expr with
    | some (field, inner) =>
      some (.matchAny field ((jsSplitComma inner.data).map (fun v => stripQuotes (jsTrim v))))
    | none => none
  else if containsSubstr expr "==" then
    match jsMatchEq expr with
    | some (field, value) => some (.matchKeyword field (jsTrim value))
    | none => none
  else none

/-- The filter actually sent with a request: the expression is parsed only
when present and non-blank (`options?.filterExpr && options.filterExpr.trim().length > 0`). -/
def qdrantEffectiveFilter (filterExpr : Option String) : Option QdrantFilter :=
  match filterExpr with
  | some e => if 0 < (jsTrim e).length then parseFilterExpression e else none
  | none => none

/-- Result shape of the modelled Qdrant server for a request with an optional
filter: the stored points that satisfy the filter (all of them when no filter
is in effect), truncated to the limit.  This is the behavioural contract the
three request paths (`search`, `hybridSearch`, `query`) share. -/
def qdrantServerSelect (points : List QdrantPoint) (filter : Option QdrantFilter)
    (limit : ℕ) : List QdrantPoint :=
  (match filter with
   | some f => points.filter (fun p => qdrantFilterMatches f (QdrantPoint.payload p))
   | none => points).take limit

/-- `QdrantVectorDatabase.search` (filter plumbing): `topK` defaults to 10. -/
def QdrantVectorDatabase.search (points : List QdrantPoint)
    (filterExpr : Option String) (topK : ℕ := 10) : List QdrantPoint :=
  qdrantServerSelect points (qdrantEffectiveFilter filterExpr) topK

/-- `QdrantVectorDatabase.hybridSearch` (filter plumbing): `limit` defaults
to 10; the prefetch branches do not take the filter. -/
def QdrantVectorDatabase.hybridSearch (points : List QdrantPoint)
    (filterExpr : Option String) (limit : ℕ := 10) : List QdrantPoint :=
  qdrantServerSelect points (qdrantEffectiveFilter filterExpr) limit

/-- `QdrantVectorDatabase.query` (filter plumbing): scroll with `limit`
defaulting to 100; the filter argument is a plain string here. -/
def QdrantVectorDatabase.query (points : List QdrantPoint)
    (filter : String) (limit : ℕ := 100) : List QdrantPoint :=
  qdrantServerSelect points (qdrantEffectiveFilter (some filter)) limit

/-! ## StatusRegistry / SnapshotManager (packages/mcp/src/snapshot.ts)

The implementation file is not part of the source drop; only its unit test
(`snapshot-race-condition.test.ts`) is.  The registry is therefore modelled
from the specification (§4.5): per-codebase lifecycle entries are held in an
in-memory map that every setter updates synchronously and every getter reads;
the disk copy is written asynchronously (`saveCodebaseSnapshot`) and is never
consulted by the getters. -/

/-- Stats recorded for a fully indexed codebase. -/
structure CodebaseIndexInfo where
  indexedFiles : ℕ
  totalChunks : ℕ
  status : String
deriving DecidableEq

/-- Lifecycle entry of one codebase. -/
inductive CodebaseEntry where
  | indexing (progress : ℚ)
  | indexed (info : CodebaseIndexInfo)
  | indexfailed (errorMessage : String) (lastAttemptedPercentage : ℚ)
deriving DecidableEq

/-- Modelled from the spec: the `SnapshotManager` of `packages/mcp/src/snapshot.ts`
(absent from the source drop).  `mem` is the authoritative in-memory state;
`disk` is the last snapshot the asynchronous writer managed to persist.  The
getters below read only `mem`. -/
structure SnapshotManager where
  mem : List (String × CodebaseEntry)
  disk : List (String × CodebaseEntry)
deriving DecidableEq

/-- Modelled from the spec: `setCodebaseIndexing` — in-memory transition to
`Indexing{progress}`. -/
def SnapshotManager.setCodebaseIndexing (sm : SnapshotManager) (path : String)
    (progress : ℚ) : SnapshotManager :=
  { sm with mem := jsSet sm.mem path (.indexing progress) }

/-- Modelled from the spec: `setCodebaseIndexed` — in-memory transition to
`Indexed{info}`; the disk write is issued afterwards, asynchronously, and is
not part of this step. -/
def SnapshotManager.setCodebaseIndexed (sm : SnapshotManager) (path : String)
    (info : CodebaseIndexInfo) : SnapshotManager :=
  { sm with mem := jsSet sm.mem path (.indexed info) }

/-- Modelled from the spec: `setCodebaseIndexFailed`. -/
def SnapshotManager.setCodebaseIndexFailed (sm : SnapshotManager) (path : String)
    (errorMessage : String) (lastAttemptedPercentage : ℚ) : SnapshotManager :=
  { sm with mem := jsSet sm.mem path (.indexfailed errorMessage lastAttemptedPercentage) }

/-- Modelled from the spec: `saveCodebaseSnapshot` — the asynchronous,
fire-and-forget disk write; it copies the in-memory state to disk and is the
only operation that touches `disk`. -/
def SnapshotManager.saveCodebaseSnapshot (sm : SnapshotManager) : SnapshotManager :=
  { sm with disk := sm.mem }

/-- Modelled from the spec: `getIndexedCodebases` reads only the in-memory
map. -/
def SnapshotManager.getIndexedCodebases (sm : SnapshotManager) : List String :=
  (sm.mem.filter (fun e => match e.2 with | .indexed _ => true | _ => false)).map Prod.fst

/-- Modelled from the spec: `getIndexingCodebases` reads only the in-memory
map. -/
def SnapshotManager.getIndexingCodebases (sm : SnapshotManager) : List String :=
  (sm.mem.filter (fun e => match e.2 with | .indexing _ => true | _ => false)).map Prod.fst

/-- Modelled from the spec: `getIndexingProgress` reads only the in-memory
map and answers only for codebases currently in the `Indexing` state. -/
def SnapshotManager.getIndexingProgress (sm : SnapshotManager) (path : String) : Option ℚ :=
  match jsGet sm.mem path with
  | some (.indexing p) => some p
  | _ => none

/-- Modelled from the spec: `getCodebaseStatus` (in-memory). -/
def SnapshotManager.getCodebaseStatus (sm : SnapshotManager) (path : String) : String :=
  match jsGet sm.mem path with
  | some (.indexing _) => "indexing"
  | some (.indexed _) => "indexed"
  | some (.indexfailed _ _) => "indexfailed"
  | none => "notfound"

/-! ## Core Context indexing lifecycle (packages/core/src/context.ts)

`Context.indexCodebase` is also absent from the source drop; only its tests
are.  The lifecycle integration test (`lifecycle.integration.test.ts`,
"should use existing collection on subsequent index") pins the behaviour on an
existing collection: a second `indexCodebase` call **succeeds** and the
document count grows cumulatively — it does not fail with `AlreadyIndexed`.
The handler-level test (`tool-handlers.integration.test.ts`) pins where the
`already indexed … force=true` rejection actually lives: in the MCP
`ToolHandlers`, keyed on the status registry, not on collection existence.
Both layers are modelled from those tests. -/

/-- Stats returned by `indexCodebase`. -/
structure IndexStats where
  indexedFiles : ℕ
  totalChunks : ℕ
  status : String
deriving DecidableEq

/-- Vector-store state as the lifecycle tests observe it through
`FakeVectorDatabase`: per collection, the number of stored documents. -/
structure CoreState where
  collections : List (String × ℕ)
deriving DecidableEq

/-- Modelled from the spec: `Context.getCollectionName` maps a canonical root
to a deterministic collection name (`code_chunks_<hex16(sha256(root))>`); the
hash is abstracted into an injective encoding, which is all the lifecycle
behaviour depends on. -/
def Context.getCollectionName (root : String) : String :=
  "code_chunks_" ++ root

/-- Modelled from the spec: `Context.indexCodebase`, as pinned by
`lifecycle.integration.test.ts`: create the collection on first use, insert
the codebase's chunks (counts abstracted by `fileCount`/`chunkCount`), and on
a subsequent call reuse the existing collection, inserting cumulatively; the
call takes no `force` flag and never fails with `AlreadyIndexed`. -/
def Context.indexCodebase (fileCount chunkCount : String → ℕ) (st : CoreState)
    (root : String) : CoreState × IndexStats :=
  let name := Context.getCollectionName root
  let current := (jsGet st.collections name).getD 0
  ({ collections := jsSet st.collections name (current + chunkCount root) },
   { indexedFiles := fileCount root, totalChunks := chunkCount root,
     status := "completed" })

/-- Modelled from the spec: `Context.clearIndex` drops the collection. -/
def Context.clearIndex (st : CoreState) (root : String) : CoreState :=
  { collections := st.collections.filter (fun e => e.1 ≠ Context.getCollectionName root) }

/-- Result of an MCP tool handler: the response text and the error flag. -/
structure ToolCallResult where
  text : String
  isError : Bool
deriving DecidableEq

/-- Modelled from the spec: `ToolHandlers.handleIndexCodebase`, as pinned by
`tool-handlers.integration.test.ts`: with `force = false` the handler rejects
a codebase the registry reports as indexed (message containing
"already indexed" and "force=true") or currently indexing; otherwise it marks
the codebase as indexing and starts background indexing. -/
def ToolHandlers.handleIndexCodebase (sm : SnapshotManager) (path : String)
    (force : Bool) : ToolCallResult × SnapshotManager :=
  if sm.getCodebaseStatus path = "indexed" ∧ force = false then
    ({ text := "Codebase at " ++ path ++
        " is already indexed. Use force=true to re-index it.", isError := true }, sm)
  else if sm.getCodebaseStatus path = "indexing" ∧ force = false then
    ({ text := "Codebase at " ++ path ++ " is already being indexed.",
       isError := true }, sm)
  else
    ({ text := "Started background indexing of " ++ path, isError := false },
     sm.setCodebaseIndexing path 0)

/-! ## Concrete trained model used by witnesses and counterexamples

Training on the corpus `["bb aa", "cc dd"]` assigns vocabulary indices
`bb ↦ 0, aa ↦ 1, cc ↦ 2, dd ↦ 3` (document-frequency-map insertion order).
Every term appears in exactly one of the two documents, so every real IDF is
`Math.log(1.5 / 1.5) = 0` — the abstracted `log` is instantiated with the
constant-zero function, which here coincides with `Math.log` exactly. -/

/-- The model trained on `["bb aa", "cc dd"]` (see above). -/
def bm25TestModel : SimpleBM25 :=
  match (SimpleBM25.mk0).learn (fun _ => 0) ["bb aa", "cc dd"] with
  | .ok m => m
  | .error _ => SimpleBM25.mk0

/-- The sparse vector generated by `bm25TestModel` for `"aa bb"` with no
options. -/
def bm25TestVector : SparseVector :=
  match bm25TestModel.generate (fun q => q) "aa bb" {} with
  | .ok v => v
  | .error _ => { indices := [], values := [] }

/-! ## Shared lemmas about the JS map model -/

theorem jsGet_eq_some_mem {ν : Type} {m : List (String × ν)} {k : String} {v : ν}
    (h : jsGet m k = some v) : (k, v) ∈ m := by
  unfold jsGet at h
  cases hf : m.find? (fun e => e.1 = k) with
  | none => rw [hf] at h; simp at h
  | some e =>
    rw [hf] at h
    have hm := List.mem_of_find?_eq_some hf
    have hp := List.find?_some hf
    simp at h hp
    obtain ⟨e1, e2⟩ := e
    simp at hp h
    rw [hp, h] at hm
    exact hm

theorem jsGet_eq_some_of_mem_nodup {ν : Type} {m : List (String × ν)} {k : String} {v : ν}
    (hn : (m.map Prod.fst).Nodup) (h : (k, v) ∈ m) : jsGet m k = some v := by
  induction m with
  | nil => simp at h
  | cons hd tl ih =>
    rw [List.map_cons, List.nodup_cons] at hn
    rcases List.mem_cons.mp h with h1 | h2
    · subst h1
      simp [jsGet, List.find?_cons]
    · by_cases hk : hd.1 = k
      · exfalso
        exact hn.1 (by rw [hk]; exact List.mem_map.mpr ⟨(k, v), h2, rfl⟩)
      · have := ih hn.2 h2
        simp only [jsGet, List.find?_cons] at this ⊢
        simp [hk]
        simpa [jsGet] using this

theorem not_key_of_jsHas_false {ν : Type} {m : List (String × ν)} {k : String}
    (h : jsHas m k = false) : ∀ e ∈ m, e.1 ≠ k := by
  intro e he hek
  unfold jsHas jsGet at h
  cases hf : m.find? (fun e => e.1 = k) with
  | none =>
    rw [List.find?_eq_none] at hf
    exact hf e he (by simp [hek])
  | some a => rw [hf] at h; simp at h

theorem jsGet_jsSet_self {ν : Type} (m : List (String × ν)) (k : String) (v : ν) :
    jsGet (jsSet m k v) k = some v := by
  unfold jsSet
  by_cases h : jsHas m k = true
  · simp only [h, if_true]
    unfold jsHas at h
    cases hf : jsGet m k with
    | none => rw [hf] at h; simp at h
    | some w =>
      clear h
      have hmem := jsGet_eq_some_mem hf
      clear hf
      induction m with
      | nil => simp at hmem
      | cons hd tl ih =>
        rcases List.mem_cons.mp hmem with h1 | h2
        · simp [jsGet, List.find?_cons, ← h1]
        · by_cases hk : hd.1 = k
          · simp [jsGet, List.find?_cons, hk]
          · simp only [List.map_cons, jsGet, List.find?_cons]
            simp [hk]
            simpa [jsGet] using ih h2
  · simp only [h]
    simp only [Bool.not_eq_true] at h
    have hnone : m.find? (fun e => e.1 = k) = none := by
      unfold jsHas jsGet at h
      cases hf : m.find? (fun e => e.1 = k) with
      | none => rfl
      | some a => rw [hf] at h; simp at h
    simp [jsGet, List.find?_append, hnone]

theorem jsSet_entry_of_key {ν : Type} {m : List (String × ν)} {k : String} {v : ν}
    {e : String × ν} (he : e ∈ jsSet m k v) (hek : e.1 = k) : e.2 = v := by
  unfold jsSet at he
  by_cases h : jsHas m k = true
  · simp only [h, if_true] at he
    obtain ⟨a, ha, hae⟩ := List.mem_map.mp he
    by_cases hk : a.1 = k
    · rw [if_pos hk] at hae; rw [← hae]
    · rw [if_neg hk] at hae; rw [← hae] at hek; exact absurd hek hk
  · simp only [h] at he
    simp only [Bool.not_eq_true] at h
    rcases List.mem_append.mp he with h1 | h2
    · exact absurd hek (not_key_of_jsHas_false h e h1)
    · simp at h2; rw [h2]

theorem key_mem_of_jsGet_isSome {ν : Type} {m : List (String × ν)} {k : String}
    (h : (jsGet m k).isSome = true) : ∃ v, (k, v) ∈ m := by
  cases hf : jsGet m k with
  | none => rw [hf] at h; simp at h
  | some v => exact ⟨v, jsGet_eq_some_mem hf⟩

/-! ## Substring lemmas -/

theorem containsSubstr_of_prefix {s pat : String}
    (h : pat.data.isPrefixOf s.data = true) : containsSubstr s pat = true := by
  unfold containsSubstr
  rw [List.any_eq_true]
  exact ⟨0, by simp, by simpa using h⟩

theorem containsSubstr_append_right {t pat : String} (s : String)
    (h : containsSubstr t pat = true) : containsSubstr (s ++ t) pat = true := by
  unfold containsSubstr at h ⊢
  rw [List.any_eq_true] at h ⊢
  obtain ⟨i, hi, hp⟩ := h
  refine ⟨s.data.length + i, ?_, ?_⟩
  · simp only [List.mem_range] at hi ⊢
    rw [String.data_append]
    simp only [List.length_append]
    omega
  · rw [String.data_append, List.drop_append]
    exact hp

theorem containsSubstr_append_left {s pat : String} (t : String)
    (h : containsSubstr s pat = true) : containsSubstr (s ++ t) pat = true := by
  unfold containsSubstr at h ⊢
  rw [List.any_eq_true] at h ⊢
  obtain ⟨i, hi, hp⟩ := h
  refine ⟨i, ?_, ?_⟩
  · simp only [List.mem_range] at hi ⊢
    rw [String.data_append]
    simp only [List.length_append]
    omega
  · rw [String.data_append]
    rw [List.isPrefixOf_iff_prefix] at hp ⊢
    calc pat.data <+: s.data.drop i := hp
      _ <+: s.data.drop i ++ t.data := List.prefix_append _ _
      _ = (s.data ++ t.data).drop i := by
          rw [List.drop_append_of_le_length]
          rw [List.mem_range] at hi
          omega

/-! ## Claim theorems -/

/-- C1: once `setCodebaseIndexed` has returned, every status read
(`getIndexedCodebases`, `getIndexingCodebases`, `getIndexingProgress`)
observes the `Indexed` state with the given stats, purely from the in-memory
state and for **every** possible disk state (the asynchronous write may not
have started, may have completed, or may have failed — the getters never look
at it); the path no longer appears in the indexing list and its progress read
returns `none`. -/
theorem setCodebaseIndexed_is_immediately_visible (sm : SnapshotManager)
    (path : String) (info : CodebaseIndexInfo)
    (disk : List (String × CodebaseEntry)) :
    path ∈ (SnapshotManager.mk (sm.setCodebaseIndexed path info).mem disk).getIndexedCodebases ∧
    jsGet (SnapshotManager.mk (sm.setCodebaseIndexed path info).mem disk).mem path
      = some (.indexed info) ∧
    path ∉ (SnapshotManager.mk (sm.setCodebaseIndexed path info).mem disk).getIndexingCodebases ∧
    (SnapshotManager.mk (sm.setCodebaseIndexed path info).mem disk).getIndexingProgress path
      = none := by
  have hget : jsGet (jsSet sm.mem path (CodebaseEntry.indexed info)) path
      = some (.indexed info) := jsGet_jsSet_self _ _ _
  refine ⟨?_, hget, ?_, ?_⟩
  · have hmem : (path, CodebaseEntry.indexed info) ∈ jsSet sm.mem path (.indexed info) :=
      jsGet_eq_some_mem hget
    unfold SnapshotManager.getIndexedCodebases
    simp only [SnapshotManager.setCodebaseIndexed]
    exact List.mem_map.mpr ⟨(path, .indexed info), List.mem_filter.mpr ⟨hmem, by simp⟩, rfl⟩
  · intro hmem
    unfold SnapshotManager.getIndexingCodebases at hmem
    simp only [SnapshotManager.setCodebaseIndexed] at hmem
    obtain ⟨e, he, hefst⟩ := List.mem_map.mp hmem
    have hval := jsSet_entry_of_key (List.mem_filter.mp he).1 hefst
    have := (List.mem_filter.mp he).2
    rw [hval] at this
    simp at this
  · unfold SnapshotManager.getIndexingProgress
    simp only [SnapshotManager.setCodebaseIndexed]
    rw [hget]

/-- C4: on the current FAISS backend, `delete` on an existing collection with
a non-empty id list rejects with the descriptive `UnsupportedDeletion` error —
naming the drop-and-recreate recovery — and removes nothing: the collection
map is returned unchanged. -/
theorem faissDelete_always_rejects (collections : List (String × FaissCollection))
    (collectionName : String) (ids : List String)
    (hcol : jsHas collections collectionName = true) (_hids : ids ≠ []) :
    faissDelete collections collectionName ids
      = (.error (faissUnsupportedDeletionMsg collectionName ids), collections) ∧
    containsSubstr (faissUnsupportedDeletionMsg collectionName ids)
      "FAISS does not support document deletion" = true ∧
    containsSubstr (faissUnsupportedDeletionMsg collectionName ids)
      "Drop the collection using dropCollection()" = true ∧
    containsSubstr (faissUnsupportedDeletionMsg collectionName ids)
      "Recreate it using createCollection() or createHybridCollection()" = true := by
  refine ⟨by simp [faissDelete, hcol], ?_, ?_, ?_⟩
  · apply containsSubstr_of_prefix
    rw [List.isPrefixOf_iff_prefix]
    unfold faissUnsupportedDeletionMsg
    rw [String.data_append]
    refine List.IsPrefix.trans ?_ (List.prefix_append _ _)
    rw [String.data_append]
    refine List.IsPrefix.trans ?_ (List.prefix_append _ _)
    rw [String.data_append]
    refine List.IsPrefix.trans ?_ (List.prefix_append _ _)
    rw [String.data_append]
    refine List.IsPrefix.trans ?_ (List.prefix_append _ _)
    rw [String.data_append]
    refine List.IsPrefix.trans ?_ (List.prefix_append _ _)
    rw [String.data_append]
    refine List.IsPrefix.trans ?_ (List.prefix_append _ _)
    rw [String.data_append]
    refine List.IsPrefix.trans ?_ (List.prefix_append _ _)
    rw [String.data_append]
    refine List.IsPrefix.trans ?_ (List.prefix_append _ _)
    decide
  · unfold faissUnsupportedDeletionMsg
    apply containsSubstr_append_left
    apply containsSubstr_append_left
    apply containsSubstr_append_left
    apply containsSubstr_append_left
    apply containsSubstr_append_right
    decide
  · unfold faissUnsupportedDeletionMsg
    apply containsSubstr_append_left
    apply containsSubstr_append_left
    apply containsSubstr_append_left
    apply containsSubstr_append_right
    decide

/-- Witness for C4 at a concrete state: one collection `col` with one stored
document, deleting ids `x, y`. -/
theorem faissDelete_always_rejects_witness :
    jsHas [("col", FaissCollection.mk ["x"] false)] "col" = true ∧
    (["x", "y"] : List String) ≠ [] ∧
    faissDelete [("col", FaissCollection.mk ["x"] false)] "col" ["x", "y"]
      = (.error (faissUnsupportedDeletionMsg "col" ["x", "y"]),
         [("col", FaissCollection.mk ["x"] false)]) :=
  ⟨by decide, by decide,
   (faissDelete_always_rejects [("col", FaissCollection.mk ["x"] false)] "col"
     ["x", "y"] (by decide) (by decide)).1⟩

set_option maxRecDepth 4000 in
/-- C9: `insertHybrid` on an untrained BM25 generator throws the instructive
error — directing the caller to `getBM25Generator().learn(corpus)` — for every
collection state and document list, before any sparse vector is generated and
before any point is upserted (the result carries no new state), and insertion
never trains the model implicitly (on the success path the returned model is
the unchanged input model). -/
theorem insertHybrid_untrained_rejects (sqrt : ℚ → ℚ) (bm25 : SimpleBM25)
    (collection : List (String × QdrantPoint)) (documents : List VectorDocument)
    (huntrained : bm25.isTrained = false) :
    QdrantVectorDatabase.insertHybrid sqrt bm25 collection documents
      = .error "BM25 generator is not trained. The caller must explicitly train it via `getBM25Generator().learn(corpus)` before calling `insertHybrid`." ∧
    containsSubstr
      "BM25 generator is not trained. The caller must explicitly train it via `getBM25Generator().learn(corpus)` before calling `insertHybrid`."
      "getBM25Generator().learn(corpus)" = true ∧
    (∀ bm25' collection', QdrantVectorDatabase.insertHybrid sqrt bm25 collection documents
      = .ok (bm25', collection') → bm25' = bm25) := by
  refine ⟨?_, by decide, ?_⟩
  · unfold QdrantVectorDatabase.insertHybrid
    rw [huntrained]
    simp
  · intro bm25' collection' h
    unfold QdrantVectorDatabase.insertHybrid at h
    rw [huntrained] at h
    simp at h

/-- Witness for C9: a freshly constructed (untrained) model, an empty
collection and no documents. -/
theorem insertHybrid_untrained_rejects_witness :
    (SimpleBM25.mk0).isTrained = false ∧
    QdrantVectorDatabase.insertHybrid (fun q => q) SimpleBM25.mk0 [] []
      = .error "BM25 generator is not trained. The caller must explicitly train it via `getBM25Generator().learn(corpus)` before calling `insertHybrid`." :=
  ⟨rfl, (insertHybrid_untrained_rejects (fun q => q) SimpleBM25.mk0 [] [] rfl).1⟩

/-- C10: a filter expression matching neither the `field == 'value'` pattern
nor the `field in [...]` pattern does not make `search`, `hybridSearch` or
`query` reject: `parseFilterExpression` returns `undefined` (after logging a
warning) and each operation runs with no filter in effect, returning the
unfiltered results. -/
theorem unparseable_filter_is_dropped (expr : String) (points : List QdrantPoint)
    (topK limit qlimit : ℕ)
    (hin : jsMatchIn expr = none) (heq : jsMatchEq expr = none) :
    parseFilterExpression expr = none ∧
    QdrantVectorDatabase.search points (some expr) topK = points.take topK ∧
    QdrantVectorDatabase.hybridSearch points (some expr) limit = points.take limit ∧
    QdrantVectorDatabase.query points expr qlimit = points.take qlimit := by
  have hparse : parseFilterExpression expr = none := by
    unfold parseFilterExpression
    by_cases h1 : containsSubstr expr " in " = true
    · simp [h1, hin]
    · by_cases h2 : containsSubstr expr "==" = true
      · simp [h1, h2, heq]
      · simp [h1, h2]
  have heff : qdrantEffectiveFilter (some expr) = none := by
    unfold qdrantEffectiveFilter
    by_cases ht : 0 < (jsTrim expr).length
    · simp [ht, hparse]
    · simp [ht]
  refine ⟨hparse, ?_, ?_, ?_⟩
  · unfold QdrantVectorDatabase.search
    rw [heff]
    rfl
  · unfold QdrantVectorDatabase.hybridSearch
    rw [heff]
    rfl
  · unfold QdrantVectorDatabase.query
    rw [heff]
    rfl

/-- Witness for C10: the expression `startLine > 5` (a comparison shape the
parser does not know) over a one-point collection. -/
theorem unparseable_filter_is_dropped_witness :
    jsMatchIn "startLine > 5" = none ∧
    jsMatchEq "startLine > 5" = none ∧
    QdrantVectorDatabase.search
      [QdrantPoint.mk [] (SparseVector.mk [] []) [("fileExtension", ".ts")]]
      (some "startLine > 5") 10
      = [QdrantPoint.mk [] (SparseVector.mk [] []) [("fileExtension", ".ts")]] :=
  ⟨by decide, by decide,
   (unparseable_filter_is_dropped "startLine > 5"
     [QdrantPoint.mk [] (SparseVector.mk [] []) [("fileExtension", ".ts")]]
     10 10 100 (by decide) (by decide)).2.1⟩

/-- C3 counterexample: with the collection for `/test/project` already
existing (after a first index), a second `indexCodebase` call — the operation
takes no `force` flag at the core level, matching the lifecycle test's
"(without force)" — does **not** fail with `AlreadyIndexed`: it returns
`status = "completed"` and changes the collection contents (the document count
grows cumulatively), contradicting both halves of the claim. -/
theorem indexCodebase_second_call_succeeds_cex :
    jsHas (Context.indexCodebase (fun _ => 2) (fun _ => 3)
        (CoreState.mk []) "/test/project").1.collections
      (Context.getCollectionName "/test/project") = true ∧
    (Context.indexCodebase (fun _ => 2) (fun _ => 3)
        (Context.indexCodebase (fun _ => 2) (fun _ => 3) (CoreState.mk []) "/test/project").1
        "/test/project").2
      = IndexStats.mk 2 3 "completed" ∧
    (Context.indexCodebase (fun _ => 2) (fun _ => 3)
        (Context.indexCodebase (fun _ => 2) (fun _ => 3) (CoreState.mk []) "/test/project").1
        "/test/project").1.collections
      ≠ (Context.indexCodebase (fun _ => 2) (fun _ => 3)
        (CoreState.mk []) "/test/project").1.collections := by
  decide

/-- C3 (amended): the core `indexCodebase` never fails with `AlreadyIndexed`:
on a root whose collection already exists it succeeds with
`status = "completed"` and inserts cumulatively into the existing collection
(new count = old count + this run's chunks); the `already indexed … force=true`
rejection lives one layer up, in the MCP `handleIndexCodebase`, and is keyed
on the status registry reporting the codebase as indexed, not on collection
existence. -/
theorem indexCodebase_cumulative_handler_rejects (fileCount chunkCount : String → ℕ)
    (st : CoreState) (root : String) (sm : SnapshotManager) (path : String)
    (hindexed : sm.getCodebaseStatus path = "indexed") :
    (Context.indexCodebase fileCount chunkCount st root).2.status = "completed" ∧
    jsGet (Context.indexCodebase fileCount chunkCount st root).1.collections
        (Context.getCollectionName root)
      = some ((jsGet st.collections (Context.getCollectionName root)).getD 0
          + chunkCount root) ∧
    (ToolHandlers.handleIndexCodebase sm path false).1.isError = true ∧
    containsSubstr (ToolHandlers.handleIndexCodebase sm path false).1.text
      "already indexed" = true ∧
    containsSubstr (ToolHandlers.handleIndexCodebase sm path false).1.text
      "force=true" = true := by
  have hhandler : (ToolHandlers.handleIndexCodebase sm path false).1
      = { text := "Codebase at " ++ path ++
            " is already indexed. Use force=true to re-index it.", isError := true } := by
    unfold ToolHandlers.handleIndexCodebase
    rw [if_pos ⟨hindexed, rfl⟩]
  refine ⟨rfl, ?_, ?_, ?_, ?_⟩
  · unfold Context.indexCodebase
    exact jsGet_jsSet_self _ _ _
  · rw [hhandler]
  · rw [hhandler]
    exact containsSubstr_append_right _ (by decide)
  · rw [hhandler]
    exact containsSubstr_append_right _ (by decide)

/-- Witness for C3 (amended): one indexed root in the registry and an existing
collection with 3 documents. -/
theorem indexCodebase_cumulative_handler_rejects_witness :
    (SnapshotManager.mk [("/p", CodebaseEntry.indexed (CodebaseIndexInfo.mk 2 3 "completed"))]
        []).getCodebaseStatus "/p" = "indexed" ∧
    jsGet (Context.indexCodebase (fun _ => 2) (fun _ => 3)
        (CoreState.mk [(Context.getCollectionName "/p", 3)]) "/p").1.collections
        (Context.getCollectionName "/p") = some 6 :=
  ⟨by decide,
   by
    have h := (indexCodebase_cumulative_handler_rejects (fun _ => 2) (fun _ => 3)
      (CoreState.mk [(Context.getCollectionName "/p", 3)]) "/p"
      (SnapshotManager.mk [("/p", CodebaseEntry.indexed (CodebaseIndexInfo.mk 2 3 "completed"))] [])
      "/p" (by decide)).2.1
    simpa using h⟩

/-- C8 counterexample: the invariant `trained ⇔ |vocabulary| > 0 ∧
avg_doc_length > 0` fails on a reachable state: learning the corpus `[""]`
(one document with no tokens) sets `trained := true` while the vocabulary
stays empty and `avgDocLength = 0`.  (The `log` argument is irrelevant here —
the document-frequency map is empty, so `Math.log` is never called.) -/
theorem trained_invariant_cex :
    ¬ (∀ m : SimpleBM25, SimpleBM25.Reachable m →
        (m.trained = true ↔ 0 < m.vocabulary.length ∧ 0 < m.avgDocLength)) := by
  intro h
  cases hres : (SimpleBM25.mk0).learn (fun _ => 0) [""] with
  | error e =>
    unfold SimpleBM25.learn at hres
    simp at hres
  | ok m' =>
    have hreach : SimpleBM25.Reachable m' :=
      SimpleBM25.Reachable.learn (fun _ => 0) [""] _ _
        (SimpleBM25.Reachable.construct (12/10) (3/4) 2 []) hres
    have hfields : m'.trained = true ∧ m'.vocabulary = [] := by
      unfold SimpleBM25.learn at hres
      rw [if_neg (by simp)] at hres
      have heq := Except.ok.inj hres
      exact ⟨by rw [← heq], by rw [← heq]; rfl⟩
    have hiff := (h m' hreach).mp hfields.1
    rw [hfields.2] at hiff
    simp at hiff

/-- C8 (amended): over every state reachable through the public operations,
only the right-to-left half of the invariant holds: an untrained model always
has an empty vocabulary and `avgDocLength = 0` (equivalently, a non-empty
vocabulary with positive average document length can occur only on a trained
model); `trained = true` merely records that some `learn` call completed, and
does not imply a non-empty vocabulary or a positive average document
length. -/
theorem untrained_state_is_empty (m : SimpleBM25) (hreach : SimpleBM25.Reachable m)
    (huntrained : m.trained = false) :
    m.vocabulary = [] ∧ m.avgDocLength = 0 := by
  induction hreach with
  | construct k1 b minTermLength stopWords => exact ⟨rfl, rfl⟩
  | learn log documents m0 m1 hr hlearn ih =>
    exfalso
    unfold SimpleBM25.learn at hlearn
    by_cases hd : documents.length = 0
    · rw [if_pos hd] at hlearn
      exact Except.noConfusion hlearn
    · rw [if_neg hd] at hlearn
      have heq := Except.ok.inj hlearn
      rw [← heq] at huntrained
      simp at huntrained

/-- Witness for C8 (amended) at the freshly constructed default model. -/
theorem untrained_state_is_empty_witness :
    SimpleBM25.Reachable SimpleBM25.mk0 ∧ SimpleBM25.mk0.trained = false ∧
    SimpleBM25.mk0.vocabulary = [] ∧ SimpleBM25.mk0.avgDocLength = 0 :=
  ⟨SimpleBM25.Reachable.construct (12/10) (3/4) 2 [], rfl,
   (untrained_state_is_empty SimpleBM25.mk0
     (SimpleBM25.Reachable.construct (12/10) (3/4) 2 []) rfl).1,
   (untrained_state_is_empty SimpleBM25.mk0
     (SimpleBM25.Reachable.construct (12/10) (3/4) 2 []) rfl).2⟩

/-! ## Lemmas about term frequencies and the learned vocabulary -/

theorem jsGet_map_update_ne {ν : Type} (m : List (String × ν)) (k t : String) (v : ν)
    (hne : t ≠ k) :
    jsGet (m.map (fun e => if e.1 = k then (e.1, v) else e)) t = jsGet m t := by
  induction m with
  | nil => simp [jsGet]
  | cons hd tl ih =>
    by_cases hk : hd.1 = k
    · have hht : ¬ hd.1 = t := by rw [hk]; exact fun hh => hne hh.symm
      simp only [List.map_cons, if_pos hk, jsGet, List.find?_cons]
      simp [hht]
      simpa [jsGet] using ih
    · simp only [List.map_cons, if_neg hk, jsGet, List.find?_cons]
      by_cases ht : hd.1 = t
      · simp [ht]
      · simp [ht]
        simpa [jsGet] using ih

theorem jsGet_jsSet_ne {ν : Type} (m : List (String × ν)) (k t : String) (v : ν)
    (hne : t ≠ k) : jsGet (jsSet m k v) t = jsGet m t := by
  unfold jsSet
  by_cases h : jsHas m k = true
  · simp only [h, if_true]
    exact jsGet_map_update_ne m k t v hne
  · rw [if_neg h]
    unfold jsGet
    rw [List.find?_append]
    have hkt : ¬ (k = t) := fun hh => hne hh.symm
    cases hf : m.find? (fun e => decide (e.1 = t)) with
    | some a => simp
    | none => simp [List.find?_cons, hkt]

theorem jsSet_keys {ν : Type} (m : List (String × ν)) (k : String) (v : ν) :
    (jsSet m k v).map Prod.fst
      = if jsHas m k then m.map Prod.fst else m.map Prod.fst ++ [k] := by
  unfold jsSet
  by_cases h : jsHas m k = true
  · simp only [h, if_true, List.map_map]
    congr 1
    funext e
    by_cases hk : e.1 = k
    · simp [hk]
    · simp [hk]
  · simp [h]

theorem jsSet_keys_nodup {ν : Type} (m : List (String × ν)) (k : String) (v : ν)
    (hn : (m.map Prod.fst).Nodup) : ((jsSet m k v).map Prod.fst).Nodup := by
  rw [jsSet_keys]
  by_cases h : jsHas m k = true
  · simpa [h] using hn
  · simp only [h]
    simp only [Bool.false_eq_true, if_false]
    rw [List.nodup_append]
    refine ⟨hn, List.nodup_singleton k, ?_⟩
    intro a ha hb
    simp at hb
    subst hb
    obtain ⟨e, he, hek⟩ := List.mem_map.mp ha
    exact not_key_of_jsHas_false (Bool.not_eq_true _ ▸ h) e he hek

/-- The term-frequency fold, characterised against `List.count`: folding the
tokens into the map starting from `acc` looks up to the accumulated base count
plus the number of occurrences. -/
theorem tf_fold_get (tokens : List String) (acc : List (String × ℕ)) (t : String) :
    jsGet (tokens.foldl (fun tf tok => jsSet tf tok ((jsGet tf tok).getD 0 + 1)) acc) t
      = if t ∈ tokens then some ((jsGet acc t).getD 0 + tokens.count t)
        else jsGet acc t := by
  induction tokens generalizing acc with
  | nil => simp
  | cons tok rest ih =>
    simp only [List.foldl_cons]
    rw [ih]
    by_cases htok : t = tok
    · subst htok
      rw [jsGet_jsSet_self]
      by_cases hrest : t ∈ rest
      · simp [hrest, List.count_cons]
        omega
      · simp [hrest, List.count_cons, List.count_eq_zero.mpr hrest]
    · rw [jsGet_jsSet_ne _ _ _ _ htok]
      by_cases hrest : t ∈ rest
      · simp [hrest, List.mem_cons, List.count_cons, htok]
      · have : ¬ (t ∈ tok :: rest) := by
          simp [htok, hrest]
        simp [hrest, this]

/-- `calculateTermFrequency` computes exactly the occurrence counts of the
token list. -/
theorem calculateTermFrequency_get (tokens : List String) (t : String) :
    jsGet (calculateTermFrequency tokens) t
      = if t ∈ tokens then some (tokens.count t) else none := by
  unfold calculateTermFrequency
  rw [tf_fold_get]
  simp [jsGet]

theorem tf_fold_keys_nodup (tokens : List String) (acc : List (String × ℕ))
    (hn : (acc.map Prod.fst).Nodup) :
    ((tokens.foldl (fun tf tok => jsSet tf tok ((jsGet tf tok).getD 0 + 1)) acc).map
      Prod.fst).Nodup := by
  induction tokens generalizing acc with
  | nil => simpa using hn
  | cons tok rest ih =>
    simp only [List.foldl_cons]
    exact ih _ (jsSet_keys_nodup _ _ _ hn)

theorem calculateTermFrequency_keys_nodup (tokens : List String) :
    ((calculateTermFrequency tokens).map Prod.fst).Nodup :=
  tf_fold_keys_nodup tokens [] (by simp)

/-- Vocabulary indices assigned by `learn` (positions in the
document-frequency map) are below the vocabulary size. -/
theorem vocab_index_lt {l : List (String × ℕ)} {t : String} {i : ℕ}
    (h : jsGet (l.enum.map (fun e => (e.2.1, e.1))) t = some i) : i < l.length := by
  have hmem := jsGet_eq_some_mem h
  obtain ⟨e, he, hei⟩ := List.mem_map.mp hmem
  have h1 : e.1 = i := congrArg Prod.snd hei
  rw [List.mem_enum_iff_getElem?] at he
  rw [h1] at he
  exact (List.getElem?_eq_some.mp he).1

/-- Distinct terms get distinct vocabulary indices. -/
theorem vocab_index_inj {l : List (String × ℕ)} {t₁ t₂ : String} {i : ℕ}
    (h₁ : jsGet (l.enum.map (fun e => (e.2.1, e.1))) t₁ = some i)
    (h₂ : jsGet (l.enum.map (fun e => (e.2.1, e.1))) t₂ = some i) : t₁ = t₂ := by
  obtain ⟨e₁, he₁, hei₁⟩ := List.mem_map.mp (jsGet_eq_some_mem h₁)
  obtain ⟨e₂, he₂, hei₂⟩ := List.mem_map.mp (jsGet_eq_some_mem h₂)
  have h11 : e₁.1 = i := congrArg Prod.snd hei₁
  have h21 : e₂.1 = i := congrArg Prod.snd hei₂
  rw [List.mem_enum_iff_getElem?] at he₁ he₂
  rw [h11] at he₁
  rw [h21] at he₂
  rw [he₁] at he₂
  have ht₁ : e₁.2.1 = t₁ := congrArg Prod.fst hei₁
  have ht₂ : e₂.2.1 = t₂ := congrArg Prod.fst hei₂
  rw [← ht₁, ← ht₂, Option.some.inj he₂]

/-- Mapping the entries of a nodup-keyed frequency map through a per-term
transformation whose output index is the term's vocabulary index produces
pairwise distinct indices. -/
theorem filterMap_vocab_keys_nodup (voc : List (String × ℕ))
    (hinj : ∀ t₁ t₂ i, jsGet voc t₁ = some i → jsGet voc t₂ = some i → t₁ = t₂)
    (tf : List (String × ℕ)) (hn : (tf.map Prod.fst).Nodup)
    (f : String × ℕ → Option (ℕ × ℚ))
    (hf : ∀ e p, f e = some p → jsGet voc e.1 = some p.1) :
    ((tf.filterMap f).map Prod.fst).Nodup := by
  induction tf with
  | nil => simp
  | cons hd rest ih =>
    rw [List.map_cons, List.nodup_cons] at hn
    rw [List.filterMap_cons]
    cases hfhd : f hd with
    | none => exact ih hn.2
    | some p =>
      rw [List.map_cons, List.nodup_cons]
      refine ⟨?_, ih hn.2⟩
      intro hmem
      obtain ⟨q, hq, hqp⟩ := List.mem_map.mp hmem
      obtain ⟨e, he, hfe⟩ := List.mem_filterMap.mp hq
      have h1 := hf hd p hfhd
      have h2 := hf e q hfe
      rw [hqp] at h2
      have hkeys : hd.1 = e.1 := hinj _ _ _ h1 h2
      exact hn.1 (hkeys ▸ List.mem_map.mpr ⟨e, he, rfl⟩)

/-- Shape of a model produced by a successful `learn`. -/
theorem learn_ok_shape (log : ℚ → ℚ) (m0 m : SimpleBM25) (documents : List String)
    (hlearn : m0.learn log documents = .ok m) :
    m.trained = true ∧
    m.vocabulary
      = (docFreqOf (documents.map m0.tokenize)).enum.map (fun e => (e.2.1, e.1)) := by
  unfold SimpleBM25.learn at hlearn
  by_cases hd : documents.length = 0
  · rw [if_pos hd] at hlearn
    exact absurd hlearn (by simp)
  · rw [if_neg hd] at hlearn
    have heq := Except.ok.inj hlearn
    exact ⟨by rw [← heq], by rw [← heq]⟩

/-- C2 counterexample: the claim's final "sort indices ascending" step does
not exist in `generate`.  On the model trained over `["bb aa", "cc dd"]`
(vocabulary `bb ↦ 0, aa ↦ 1, …`), generating for `"aa bb"` emits the indices
in term-frequency-map insertion order — `[1, 0]` — which is not strictly
ascending. -/
theorem generate_indices_unsorted_cex :
    (((SimpleBM25.mk0).learn (fun _ => 0) ["bb aa", "cc dd"]).bind
        (fun m => m.generate (fun q => q) "aa bb" {})).map (fun v => v.indices)
      = .ok [1, 0] ∧
    ¬ List.Sorted (· < ·) [1, 0] := by
  constructor
  · decide
  · decide

/-- C2 (amended): for every model obtained from `learn` and every text and
option set, a successful `generate` returns a structurally sound sparse
vector: `indices` and `values` have equal length, every index is below the
vocabulary size, and the indices are pairwise distinct.  The claim's final
"sort indices ascending, values in lockstep" step does not exist in the code
(see the counterexample): without `maxTerms` the indices are in term
first-occurrence order, after the top-`maxTerms` selection they are in
score-descending order.  (In this rational-valued model every value is
trivially a finite number; the float corner in which L2-normalising an
all-zero vector yields `NaN` is outside the model.) -/
theorem generate_wellformed (log sqrt : ℚ → ℚ) (m0 m : SimpleBM25)
    (documents : List String) (text : String) (config : SparseVectorConfig)
    (v : SparseVector)
    (hlearn : m0.learn log documents = .ok m)
    (hgen : m.generate sqrt text config = .ok v) :
    v.indices.length = v.values.length ∧
    (∀ i ∈ v.indices, i < m.getVocabularySize) ∧
    v.indices.Nodup := by
  obtain ⟨htr, hvoc⟩ := learn_ok_shape log m0 m documents hlearn
  unfold SimpleBM25.generate at hgen
  rw [if_neg (by rw [htr]; simp)] at hgen
  have hv := Except.ok.inj hgen
  subst hv
  set tokens := m.tokenize text with htokens
  set termFreq := calculateTermFrequency tokens with htf
  set docLength : ℚ := (tokens.length : ℚ) with hdl
  set F : String × ℕ → Option (ℕ × ℚ) := fun e =>
    match jsGet m.vocabulary e.1, jsGet m.idf e.1 with
    | some vocabIndex, some idfScore =>
      let score := bm25Contribution m docLength idfScore e.2
      match config.minScore with
      | some ms => if score < ms then none else some (vocabIndex, score)
      | none => some (vocabIndex, score)
    | _, _ => none with hF
  set pairs := termFreq.filterMap F with hpairs
  set pairs' : List (ℕ × ℚ) :=
    match config.maxTerms with
    | some mt => if mt < pairs.length then (sortByScoreDesc pairs).take mt else pairs
    | none => pairs with hpairs'
  have hFkey : ∀ e p, F e = some p → jsGet m.vocabulary e.1 = some p.1 := by
    intro e p hfe
    rw [hF] at hfe
    simp only [] at hfe
    cases hv1 : jsGet m.vocabulary e.1 with
    | none => rw [hv1] at hfe; simp at hfe
    | some vocabIndex =>
      cases hv2 : jsGet m.idf e.1 with
      | none => rw [hv1, hv2] at hfe; simp at hfe
      | some idfScore =>
        rw [hv1, hv2] at hfe
        simp only at hfe
        cases hms : config.minScore with
        | none =>
          rw [hms] at hfe
          simp only [Option.some.injEq] at hfe
          rw [← hfe]
        | some ms =>
          rw [hms] at hfe
          simp only [] at hfe
          split at hfe
          · simp at hfe
          · simp only [Option.some.injEq] at hfe
            rw [← hfe]
  have hsubperm : pairs'.Subperm pairs := by
    rw [hpairs']
    cases config.maxTerms with
    | none => exact List.Perm.subperm (List.Perm.refl _)
    | some mt =>
      by_cases hmt : mt < pairs.length
      · simp only [hmt, if_true]
        exact ((List.take_sublist mt _).subperm).trans
          ((List.perm_insertionSort _ pairs).subperm)
      · simp only [hmt, if_false]
        exact List.Perm.subperm (List.Perm.refl _)
  have hmemsub : ∀ i ∈ pairs'.map Prod.fst, i ∈ pairs.map Prod.fst := by
    intro i hi
    obtain ⟨l, hperm, hsub⟩ := hsubperm
    have hsp : (pairs'.map Prod.fst).Subperm (pairs.map Prod.fst) :=
      ⟨l.map Prod.fst, hperm.map Prod.fst, hsub.map Prod.fst⟩
    exact hsp.subset hi
  have hnodup_pairs : (pairs.map Prod.fst).Nodup := by
    rw [hpairs]
    refine filterMap_vocab_keys_nodup m.vocabulary ?_ termFreq
      (calculateTermFrequency_keys_nodup tokens) F hFkey
    intro t₁ t₂ i h₁ h₂
    rw [hvoc] at h₁ h₂
    exact vocab_index_inj h₁ h₂
  refine ⟨?_, ?_, ?_⟩
  · simp only
    split
    · simp
    · simp
  · intro i hi
    simp only at hi
    have hip := hmemsub i hi
    obtain ⟨p, hp, hpi⟩ := List.mem_map.mp hip
    obtain ⟨e, he, hfe⟩ := List.mem_filterMap.mp hp
    have := hFkey e p hfe
    rw [hvoc] at this
    have hlt := vocab_index_lt this
    unfold SimpleBM25.getVocabularySize
    rw [hvoc]
    simp only [List.length_map, List.enum_length]
    rw [hpi] at hlt
    exact hlt
  · simp only
    obtain ⟨l, hperm, hsub⟩ := hsubperm
    exact ((hperm.map Prod.fst).nodup_iff).mp
      (((hsub.map Prod.fst)).nodup hnodup_pairs)

/-- Witness for C2 (amended) on the concrete trained model. -/
theorem generate_wellformed_witness :
    (SimpleBM25.mk0).learn (fun _ => 0) ["bb aa", "cc dd"] = .ok bm25TestModel ∧
    bm25TestModel.generate (fun q => q) "aa bb" {} = .ok bm25TestVector ∧
    bm25TestVector.indices.Nodup := by
  have h1 : (SimpleBM25.mk0).learn (fun _ => 0) ["bb aa", "cc dd"] = .ok bm25TestModel := by
    unfold bm25TestModel
    cases hres : (SimpleBM25.mk0).learn (fun _ => 0) ["bb aa", "cc dd"] with
    | ok m => rfl
    | error e =>
      exfalso
      unfold SimpleBM25.learn at hres
      simp at hres
  have htr : bm25TestModel.trained = true := (learn_ok_shape _ _ _ _ h1).1
  have h2 : bm25TestModel.generate (fun q => q) "aa bb" {} = .ok bm25TestVector := by
    unfold bm25TestVector
    cases hres : bm25TestModel.generate (fun q => q) "aa bb" {} with
    | ok v => rfl
    | error e =>
      exfalso
      unfold SimpleBM25.generate at hres
      rw [if_neg (by rw [htr]; simp)] at hres
      simp at hres
  exact ⟨h1, h2,
    (generate_wellformed (fun _ => 0) (fun q => q) SimpleBM25.mk0 bm25TestModel
      ["bb aa", "cc dd"] "aa bb" {} bm25TestVector h1 h2).2.2⟩

/-- C5: `generate` throws `NotTrained` on an untrained model; on a trained
model (with no options) the output pairs are exactly the BM25 contributions
`idf(t) · tf·(k1+1) / (tf + k1·(1 − b + b·len(doc)/avg_doc_length))` of the
tokenised in-vocabulary terms, where `tf` is the term's occurrence count in
the tokenised text (`tokenize`: lower-case, replace non-`[A-Za-z0-9_]`
characters by spaces, split on whitespace, drop short and stop-listed
tokens); out-of-vocabulary terms contribute nothing. -/
theorem generate_bm25_formula (sqrt : ℚ → ℚ) (m : SimpleBM25) (text : String) :
    (m.trained = false →
      m.generate sqrt text {}
        = .error "BM25 generator must be trained before generating vectors. Call learn() first.") ∧
    (∀ v, m.trained = true → m.generate sqrt text {} = .ok v →
      ((∀ t idx idfScore, jsGet m.vocabulary t = some idx →
          jsGet m.idf t = some idfScore → t ∈ m.tokenize text →
          (idx, bm25Contribution m ((m.tokenize text).length : ℚ) idfScore
            ((m.tokenize text).count t)) ∈ v.indices.zip v.values) ∧
       (∀ p ∈ v.indices.zip v.values, ∃ t idx idfScore,
          jsGet m.vocabulary t = some idx ∧ jsGet m.idf t = some idfScore ∧
          t ∈ m.tokenize text ∧
          p = (idx, bm25Contribution m ((m.tokenize text).length : ℚ) idfScore
            ((m.tokenize text).count t))))) := by
  constructor
  · intro huntrained
    unfold SimpleBM25.generate
    rw [if_pos huntrained]
  · intro v htrained hgen
    unfold SimpleBM25.generate at hgen
    rw [if_neg (by rw [htrained]; simp)] at hgen
    set tokens := m.tokenize text with htokens
    set termFreq := calculateTermFrequency tokens with htf
    set F : String × ℕ → Option (ℕ × ℚ) := fun e =>
      match jsGet m.vocabulary e.1, jsGet m.idf e.1 with
      | some vocabIndex, some idfScore =>
        some (vocabIndex, bm25Contribution m ((tokens.length : ℚ)) idfScore e.2)
      | _, _ => none with hF
    set pairs := termFreq.filterMap F with hpairs
    have hv : v = { indices := pairs.map Prod.fst, values := pairs.map Prod.snd } :=
      (Except.ok.inj hgen).symm
    have hzip : ∀ (P : List (ℕ × ℚ)),
        (P.map Prod.fst).zip (P.map Prod.snd) = P := by
      intro P
      rw [List.zip_map']
      simp
    constructor
    · intro t idx idfScore hvt hit htok
      rw [hv]
      simp only
      rw [hzip]
      have htfget : jsGet termFreq t = some (tokens.count t) := by
        rw [htf, calculateTermFrequency_get]
        rw [if_pos htok]
      have hmem : (t, tokens.count t) ∈ termFreq := jsGet_eq_some_mem htfget
      refine List.mem_filterMap.mpr ⟨(t, tokens.count t), hmem, ?_⟩
      rw [hF]
      simp only [hvt, hit]
    · intro p hp
      rw [hv] at hp
      simp only at hp
      rw [hzip] at hp
      obtain ⟨e, he, hfe⟩ := List.mem_filterMap.mp hp
      rw [hF] at hfe
      simp only [] at hfe
      have hget : jsGet termFreq e.1 = some e.2 := by
        rw [htf]
        exact jsGet_eq_some_of_mem_nodup (calculateTermFrequency_keys_nodup tokens)
          (by rw [← htf]; exact (Prod.mk.eta ▸ he))
      rw [htf, calculateTermFrequency_get] at hget
      by_cases htok : e.1 ∈ tokens
      · rw [if_pos htok] at hget
        have hcount : e.2 = tokens.count e.1 := (Option.some.inj hget).symm
        cases hv1 : jsGet m.vocabulary e.1 with
        | none => rw [hv1] at hfe; simp at hfe
        | some idx =>
          cases hv2 : jsGet m.idf e.1 with
          | none => rw [hv1, hv2] at hfe; simp at hfe
          | some idfScore =>
            rw [hv1, hv2] at hfe
            simp only [Option.some.injEq] at hfe
            refine ⟨e.1, idx, idfScore, hv1, hv2, htok, ?_⟩
            rw [← hfe, hcount]
      · rw [if_neg htok] at hget
        exact absurd hget (by simp)

/-- Witness for C5 on the concrete trained model: the in-vocabulary term
`aa` (vocabulary index 1, idf 0) of the query `"aa bb"` receives exactly its
BM25 contribution. -/
theorem generate_bm25_formula_witness :
    bm25TestModel.trained = true ∧
    jsGet bm25TestModel.vocabulary "aa" = some 1 ∧
    jsGet bm25TestModel.idf "aa" = some 0 ∧
    "aa" ∈ bm25TestModel.tokenize "aa bb" ∧
    (1, bm25Contribution bm25TestModel ((bm25TestModel.tokenize "aa bb").length : ℚ) 0
      ((bm25TestModel.tokenize "aa bb").count "aa"))
      ∈ bm25TestVector.indices.zip bm25TestVector.values := by
  have h1 : (SimpleBM25.mk0).learn (fun _ => 0) ["bb aa", "cc dd"] = .ok bm25TestModel := by
    unfold bm25TestModel
    cases hres : (SimpleBM25.mk0).learn (fun _ => 0) ["bb aa", "cc dd"] with
    | ok m => rfl
    | error e =>
      exfalso
      unfold SimpleBM25.learn at hres
      simp at hres
  have htr : bm25TestModel.trained = true := (learn_ok_shape _ _ _ _ h1).1
  have hgen : bm25TestModel.generate (fun q => q) "aa bb" {} = .ok bm25TestVector := by
    unfold bm25TestVector
    cases hres : bm25TestModel.generate (fun q => q) "aa bb" {} with
    | ok v => rfl
    | error e =>
      exfalso
      unfold SimpleBM25.generate at hres
      rw [if_neg (by rw [htr]; simp)] at hres
      simp at hres
  refine ⟨htr, by rfl, by rfl, by decide, ?_⟩
  exact ((generate_bm25_formula (fun q => q) bm25TestModel "aa bb").2 bm25TestVector
    htr hgen).1 "aa" 1 0 (by rfl) (by rfl) (by decide)

/-- Running the retry loop against a stream of retryable errors: every
remaining retry is used, each failed attempt `j` waits `backoffDelay` of `j`,
and the final error is the one of the last attempt. -/
theorem runRetryAux_all_retryable {α : Type} (baseDelay : ℕ) (es : ℕ → JsError)
    (hre : ∀ i, isRetryableError (es i) = true) :
    ∀ (remaining i : ℕ) (ds : List ℕ),
      runRetryAux (α := α) baseDelay (fun j => .error (es j)) remaining i ds
        = .exhausted (es (i + remaining))
            (ds.reverse ++ (List.range remaining).map (fun j => backoffDelay baseDelay (i + j))) := by
  intro remaining
  induction remaining with
  | zero =>
    intro i ds
    unfold runRetryAux
    simp [hre i]
  | succ r ih =>
    intro i ds
    unfold runRetryAux
    simp only [hre i, if_true]
    rw [ih (i + 1) (backoffDelay baseDelay i :: ds)]
    congr 1
    · congr 1
      omega
    · rw [List.range_succ_eq_map]
      simp only [List.reverse_cons, List.map_cons, List.map_map]
      rw [List.append_assoc]
      congr 1
      simp only [List.singleton_append, Nat.add_zero]
      congr 1
      apply List.map_congr_left
      intro j _
      simp only [Function.comp_apply]
      congr 1
      omega

/-- The per-item fallback loop over positive item indices, each item
succeeding on its first attempt: results in order, one
`FALLBACK_DELAY_MS` wait per item. -/
theorem runFallbackAux_all_ok {α : Type} (maxRetries baseDelay : ℕ) (vals : ℕ → α) :
    ∀ (is : List ℕ) (acc : List α) (ds : List ℕ), (∀ i ∈ is, 0 < i) →
      runFallbackAux maxRetries baseDelay (fun i _ => .ok (vals i)) is acc ds
        = .ok (acc.reverse ++ is.map vals)
            (ds.reverse ++ List.replicate is.length FALLBACK_DELAY_MS) := by
  intro is
  induction is with
  | nil =>
    intro acc ds _
    unfold runFallbackAux
    simp
  | cons i rest ih =>
    intro acc ds hpos
    unfold runFallbackAux
    have hi : 0 < i := hpos i (by simp)
    simp only [hi, if_pos]
    have hitem : executeWithRetry (α := α) maxRetries baseDelay
        ((fun i _ => .ok (vals i)) i) = .ok (vals i) [] := by
      unfold executeWithRetry runRetryAux
      simp
    rw [hitem]
    simp only []
    rw [ih (vals i :: acc) (List.reverse [] ++ FALLBACK_DELAY_MS :: ds)
      (fun j hj => hpos j (by simp [hj]))]
    simp [List.replicate_succ]

/-- C7 counterexample: the claim's "HTTP status 429 or 5xx" is wrong — the
code whitelists exactly `[429, 500, 502, 503, 504]`.  An error with status
501 (a 5xx status) and no code or matching message is classified
non-retryable and fails immediately, with no backoff wait. -/
theorem retry_5xx_cex :
    (500 ≤ (501 : ℤ) ∧ (501 : ℤ) < 600) ∧
    isRetryableError (.obj none (some 501) none) = false ∧
    executeWithRetry (α := ℕ) 3 1000 (fun _ => .error (.obj none (some 501) none))
      = .nonRetryable (.obj none (some 501) none) [] := by
  refine ⟨by decide, by decide, ?_⟩
  unfold executeWithRetry runRetryAux
  simp only []
  rw [if_neg (by decide)]
  rfl

/-- C7 (amended): the retry layer classifies an object error as retryable iff
its `code` is one of `ECONNREFUSED/ETIMEDOUT/ENOTFOUND/EAI_AGAIN`, its
`status` is one of exactly `429, 500, 502, 503, 504` (not every 5xx — see the
counterexample), or its lower-cased message contains one of
`rate limit / quota exceeded / service unavailable / timeout / connection`;
a non-retryable first error fails immediately with no waits; a stream of
retryable errors is retried up to `maxRetries` times after the initial
attempt, waiting `min(baseDelay · 2^i, 10000)` ms after failed attempt `i`
(starting at `baseDelay`, doubling, capped at 10 s); and when the batch embed
still fails after its retries, the call falls back to per-item embedding in
order, with a 100 ms wait before every item but the first. -/
theorem retry_layer_spec {α : Type} :
    (∀ code status message,
      isRetryableError (JsError.obj code status message) = true ↔
        ((∃ c ∈ networkErrorCodes, code = some c) ∨
         (∃ s ∈ retryableStatusCodes, status = some s) ∨
         (∃ p ∈ retryablePatterns,
            containsSubstr (jsToLower (message.getD "")) p = true))) ∧
    (∀ (maxRetries baseDelay : ℕ) (e : JsError) (attempts : ℕ → Except JsError α),
      isRetryableError e = false → attempts 0 = .error e →
      executeWithRetry maxRetries baseDelay attempts = .nonRetryable e []) ∧
    (∀ (maxRetries baseDelay : ℕ) (es : ℕ → JsError),
      (∀ i, isRetryableError (es i) = true) →
      executeWithRetry (α := α) maxRetries baseDelay (fun i => .error (es i))
        = .exhausted (es maxRetries)
            ((List.range maxRetries).map (fun i => min (baseDelay * 2 ^ i) 10000))) ∧
    (∀ (maxRetries baseDelay n : ℕ) (ebatch : JsError) (vals : ℕ → α),
      isRetryableError ebatch = true →
      embedBatch maxRetries baseDelay (fun _ => .error ebatch) (fun i _ => .ok (vals i)) n
        = .ok ((List.range n).map vals)
            (((List.range maxRetries).map (fun i => min (baseDelay * 2 ^ i) 10000))
              ++ List.replicate (n - 1) FALLBACK_DELAY_MS)) := by
  refine ⟨?_, ?_, ?_, ?_⟩
  · intro code status message
    unfold isRetryableError
    simp only []
    by_cases h1 : ((code.map (fun c => networkErrorCodes.contains c)).getD false) = true
    · rw [if_pos h1]
      refine iff_of_true rfl ?_
      left
      cases code with
      | none => simp at h1
      | some c => exact ⟨c, List.elem_iff.mp h1, rfl⟩
    · rw [if_neg h1]
      by_cases h2 : ((status.map (fun s => retryableStatusCodes.contains s)).getD false) = true
      · rw [if_pos h2]
        refine iff_of_true rfl ?_
        right; left
        cases status with
        | none => simp at h2
        | some s => exact ⟨s, List.elem_iff.mp h2, rfl⟩
      · rw [if_neg h2]
        show retryablePatterns.any (fun p => containsSubstr (jsToLower (message.getD "")) p)
            = true ↔ _
        constructor
        · intro h
          right; right
          exact List.any_eq_true.mp h
        · intro h
          rcases h with ⟨c, hc, hcode⟩ | ⟨s, hs, hstat⟩ | hp
          · exfalso
            apply h1
            rw [hcode]
            exact List.elem_iff.mpr hc
          · exfalso
            apply h2
            rw [hstat]
            exact List.elem_iff.mpr hs
          · exact List.any_eq_true.mpr hp
  · intro maxRetries baseDelay e attempts hnon h0
    unfold executeWithRetry runRetryAux
    rw [h0]
    simp only []
    rw [if_neg (by rw [hnon]; simp)]
    rfl
  · intro maxRetries baseDelay es hre
    unfold executeWithRetry
    rw [runRetryAux_all_retryable baseDelay es hre maxRetries 0 []]
    simp [backoffDelay]
  · intro maxRetries baseDelay n ebatch vals hre
    unfold embedBatch executeWithRetry
    rw [show (fun (_ : ℕ) => (.error ebatch : Except JsError (List α)))
        = fun i => .error ((fun _ => ebatch) i) from rfl]
    rw [runRetryAux_all_retryable baseDelay (fun _ => ebatch) (fun _ => hre) maxRetries 0 []]
    simp only []
    cases n with
    | zero =>
      unfold runFallbackAux
      simp [backoffDelay]
    | succ n' =>
      rw [List.range_succ_eq_map]
      unfold runFallbackAux
      simp only []
      rw [if_neg (Nat.lt_irrefl 0)]
      have hitem : executeWithRetry (α := α) maxRetries baseDelay
          ((fun i _ => .ok (vals i)) 0) = .ok (vals 0) [] := by
        unfold executeWithRetry runRetryAux
        simp
      rw [hitem]
      simp only []
      rw [runFallbackAux_all_ok maxRetries baseDelay vals ((List.range n').map Nat.succ)]
      · simp [backoffDelay, List.map_map, Function.comp]
      · intro j hj
        obtain ⟨x, _, hx⟩ := List.mem_map.mp hj
        omega

theorem retry_layer_spec_witness :
    (isRetryableError (JsError.obj (some "ECONNREFUSED") none none) = true ↔
      ((∃ c ∈ networkErrorCodes, (some "ECONNREFUSED" : Option String) = some c) ∨
       (∃ s ∈ retryableStatusCodes, (none : Option ℤ) = some s) ∨
       (∃ p ∈ retryablePatterns,
          containsSubstr (jsToLower ((none : Option String).getD "")) p = true))) ∧
    executeWithRetry (α := ℕ) 3 1000
        (fun _ => .error (.obj none (some 400) none))
      = .nonRetryable (.obj none (some 400) none) [] ∧
    executeWithRetry (α := ℕ) 2 1000
        (fun _ => .error (.obj none (some 429) none))
      = .exhausted (.obj none (some 429) none)
          ((List.range 2).map (fun i => min (1000 * 2 ^ i) 10000)) ∧
    embedBatch (α := ℕ) 1 1000 (fun _ => .error (.obj none (some 503) none))
        (fun i _ => .ok (i * 10)) 3
      = .ok ((List.range 3).map (fun j => j * 10))
          (((List.range 1).map (fun i => min (1000 * 2 ^ i) 10000))
            ++ List.replicate (3 - 1) FALLBACK_DELAY_MS) :=
  ⟨(retry_layer_spec (α := ℕ)).1 (some "ECONNREFUSED") none none,
   (retry_layer_spec (α := ℕ)).2.1 3 1000 (.obj none (some 400) none)
     (fun _ => .error (.obj none (some 400) none)) (by decide) rfl,
   (retry_layer_spec (α := ℕ)).2.2.1 2 1000 (fun _ => .obj none (some 429) none)
     (fun i => show isRetryableError (JsError.obj none (some 429) none) = true by decide),
   (retry_layer_spec (α := ℕ)).2.2.2 1 1000 3 (.obj none (some 503) none)
     (fun j => j * 10) (by decide)⟩

/-- Searching a mapped list is searching the original list under the composed
predicate. -/
theorem findIdx_map_comp {α β : Type} (f : α → β) (p : β → Bool) :
    ∀ (l : List α), (l.map f).findIdx p = l.findIdx (fun a => p (f a)) := by
  intro l
  induction l with
  | nil => rfl
  | cons x xs ih =>
    rw [List.map_cons, List.findIdx_cons, List.findIdx_cons]
    cases p (f x) with
    | false => simp only [Bool.cond_false, ih]
    | true => rfl

/-- In a duplicate-free list, a two-element sublist appears in index order. -/
theorem pair_sublist_findIdx_lt {α : Type} [DecidableEq α] {a b : α} :
    ∀ {l : List α}, [a, b].Sublist l → l.Nodup →
      l.findIdx (fun z => z = a) < l.findIdx (fun z => z = b) := by
  intro l
  induction l with
  | nil => intro h; simp at h
  | cons x xs ih =>
    intro h hn
    rw [List.nodup_cons] at hn
    cases h with
    | cons _ h' =>
      have ha : a ∈ xs := h'.subset (by simp)
      have hb : b ∈ xs := h'.subset (by simp)
      rw [List.findIdx_cons, List.findIdx_cons]
      have hxa : decide (x = a) = false := by
        apply decide_eq_false; rintro rfl; exact hn.1 ha
      have hxb : decide (x = b) = false := by
        apply decide_eq_false; rintro rfl; exact hn.1 hb
      rw [hxa, hxb]
      simp only [Bool.cond_false]
      exact Nat.succ_lt_succ (ih h' hn.2)
    | cons₂ _ h' =>
      have hb : b ∈ xs := h'.subset (by simp)
      rw [List.findIdx_cons, List.findIdx_cons]
      have hxa : decide (a = a) = true := by simp
      have hxb : decide (a = b) = false := by
        apply decide_eq_false; rintro rfl; exact hn.1 hb
      rw [hxa, hxb]
      simp only [Bool.cond_false, Bool.cond_true]
      exact Nat.succ_pos _

/-- A JS Set iterates each element once. -/
theorem jsSetOrder_nodup : ∀ (L : List String), (jsSetOrder L).Nodup := by
  intro L
  induction L with
  | nil => exact List.nodup_nil
  | cons x xs ih =>
    rw [jsSetOrder, List.nodup_cons]
    constructor
    · intro hmem
      have := List.of_mem_filter hmem
      simp at this
    · exact List.Nodup.filter _ ih

/-- Building a JS Set preserves membership. -/
theorem mem_jsSetOrder {d : String} : ∀ {L : List String}, d ∈ jsSetOrder L ↔ d ∈ L := by
  intro L
  induction L with
  | nil => simp [jsSetOrder]
  | cons x xs ih =>
    rw [jsSetOrder]
    by_cases hdx : d = x
    · subst hdx; simp
    · simp only [List.mem_cons, List.mem_filter]
      constructor
      · rintro (h | ⟨h, _⟩)
        · exact Or.inl h
        · exact Or.inr (ih.mp h)
      · rintro (h | h)
        · exact Or.inl h
        · exact Or.inr ⟨ih.mpr h, by simpa using hdx⟩

/-- Building a JS Set from a concatenation whose left part is duplicate-free
keeps the left part in front, followed by the deduplicated right part minus
the left elements. -/
theorem jsSetOrder_append_nodup_left :
    ∀ (A B : List String), A.Nodup →
      jsSetOrder (A ++ B) = A ++ (jsSetOrder B).filter (fun y => decide (y ∉ A)) := by
  intro A
  induction A with
  | nil =>
    intro B _
    simp only [List.nil_append]
    rw [List.filter_eq_self.mpr]
    intro y _
    simp
  | cons a A' ih =>
    intro B hn
    rw [List.nodup_cons] at hn
    rw [List.cons_append, jsSetOrder, ih B hn.2]
    rw [List.filter_append, List.filter_filter]
    have h1 : A'.filter (fun y => decide (y ≠ a)) = A' := by
      rw [List.filter_eq_self]
      intro y hy
      apply decide_eq_true
      rintro rfl
      exact hn.1 hy
    rw [h1, List.cons_append]
    congr 1
    congr 1
    apply List.filter_congr
    intro y _
    show (decide (y ≠ a) && decide (y ∉ A')) = decide (y ∉ a :: A')
    by_cases h2 : y = a
    · subst h2; simp
    · by_cases h3 : y ∈ A' <;> simp [h2, h3]

/-- Two distinct members of a list occur in one of the two orders. -/
theorem mem_mem_ne_sublist {α : Type} {x y : α} :
    ∀ {l : List α}, x ∈ l → y ∈ l → x ≠ y →
      [x, y].Sublist l ∨ [y, x].Sublist l := by
  intro l
  induction l with
  | nil => intro h; simp at h
  | cons a l ih =>
    intro hx hy hne
    rcases List.mem_cons.mp hx with rfl | hx'
    · have hy' : y ∈ l := by
        rcases List.mem_cons.mp hy with rfl | h
        · exact absurd rfl hne
        · exact h
      exact Or.inl ((List.singleton_sublist.mpr hy').cons₂ x)
    · rcases List.mem_cons.mp hy with rfl | hy'
      · exact Or.inr ((List.singleton_sublist.mpr hx').cons₂ y)
      · rcases ih hx' hy' hne with h | h
        · exact Or.inl (h.cons a)
        · exact Or.inr (h.cons a)

/-- JS `Map.has` is membership among the keys. -/
theorem jsHas_iff_mem_keys {ν : Type} (l : List (String × ν)) (d : String) :
    jsHas l d = true ↔ d ∈ l.map Prod.fst := by
  unfold jsHas jsGet
  rw [Option.isSome_map']
  rw [List.find?_isSome]
  constructor
  · rintro ⟨e, he, hp⟩
    exact List.mem_map.mpr ⟨e, he, of_decide_eq_true hp⟩
  · intro h
    obtain ⟨e, he, hk⟩ := List.mem_map.mp h
    exact ⟨e, he, decide_eq_true hk⟩

/-- With duplicate-free keys, searching an association list for the key of its
i-th entry finds exactly position i. -/
theorem findIdx_key_of_nodup {ν : Type} :
    ∀ (l : List (String × ν)), (l.map Prod.fst).Nodup →
    ∀ (i : ℕ) (h : i < l.length),
      l.findIdx (fun e => e.1 = (l.get ⟨i, h⟩).1) = i := by
  intro l
  induction l with
  | nil => intro _ i h; simp at h
  | cons x xs ih =>
    intro hn i h
    rw [List.map_cons, List.nodup_cons] at hn
    cases i with
    | zero =>
      rw [List.findIdx_cons]
      simp
    | succ j =>
      have hj : j < xs.length := by simpa using h
      have hget : ((x :: xs).get ⟨j + 1, h⟩) = xs.get ⟨j, hj⟩ := rfl
      rw [hget, List.findIdx_cons]
      have hkey : (xs.get ⟨j, hj⟩).1 ∈ xs.map Prod.fst :=
        List.mem_map.mpr ⟨_, List.get_mem _ _ _, rfl⟩
      have hx : decide (x.1 = (xs.get ⟨j, hj⟩).1) = false := by
        apply decide_eq_false
        intro he
        exact hn.1 (he ▸ hkey)
      rw [hx]
      simp only [Bool.cond_false]
      rw [ih hn.2 j hj]

/-- On a list already sorted by score descending with duplicate-free keys, the
rank computed by `applyRRF` is the 1-based position in the list. -/
theorem jsFindRank_sorted {l : List (String × ℚ)}
    (hsorted : List.Pairwise (fun a b : String × ℚ => a.2 ≥ b.2) l)
    (hn : (l.map Prod.fst).Nodup) (i : ℕ) (h : i < l.length) :
    jsFindRank (l.get ⟨i, h⟩).1 l = i + 1 := by
  unfold jsFindRank
  have hsort : sortByScoreDesc l = l := List.Sorted.insertionSort_eq hsorted
  rw [hsort, findIdx_key_of_nodup l hn i h]

/-- C6: for ranked inputs (each branch list sorted by score descending, with
duplicate-free document ids), `applyRRF` with no k option uses k = 60 and:
the rank of a document is its 1-based position in its branch list; every
returned document carries the fused score `1/(60+denseRank) + 1/(60+sparseRank)`
where a branch absent the document contributes 0; the results are sorted by
fused score descending; and a tie is broken by better (smaller) dense rank,
with documents present in the dense branch preceding those absent from it,
and the lexicographic-id clause only reachable when both tied documents are
dense-absent (which forces distinct sparse ranks and hence distinct scores,
so it never fires). -/
theorem applyRRF_spec (collectionDocIds : List String)
    (dense sparse : List (String × ℚ))
    (hd : List.Pairwise (fun a b : String × ℚ => a.2 ≥ b.2) dense)
    (hs : List.Pairwise (fun a b : String × ℚ => a.2 ≥ b.2) sparse)
    (hdn : (dense.map Prod.fst).Nodup)
    (hsn : (sparse.map Prod.fst).Nodup) :
    (∀ (i : ℕ) (h : i < dense.length), jsFindRank (dense.get ⟨i, h⟩).1 dense = i + 1) ∧
    (∀ (i : ℕ) (h : i < sparse.length), jsFindRank (sparse.get ⟨i, h⟩).1 sparse = i + 1) ∧
    (∀ d s, (d, s) ∈ applyRRF none collectionDocIds dense sparse →
      s = (if jsHas dense d = true then 1 / (60 + (jsFindRank d dense : ℚ)) else 0) +
          (if jsHas sparse d = true then 1 / (60 + (jsFindRank d sparse : ℚ)) else 0)) ∧
    List.Pairwise (fun a b : String × ℚ => a.2 ≥ b.2)
      (applyRRF none collectionDocIds dense sparse) ∧
    (∀ x y, [x, y].Sublist (applyRRF none collectionDocIds dense sparse) → x.2 = y.2 →
      (jsHas dense x.1 = true ∧ jsHas dense y.1 = true ∧
        jsFindRank x.1 dense < jsFindRank y.1 dense) ∨
      (jsHas dense x.1 = true ∧ jsHas dense y.1 = false) ∨
      (jsHas dense x.1 = false ∧ jsHas dense y.1 = false ∧ x.1 < y.1)) := by
  have hout : applyRRF none collectionDocIds dense sparse
      = (sortByScoreDesc ((jsSetOrder (dense.map Prod.fst ++ sparse.map Prod.fst)).map
          (fun d => (d, rrfScoreOf 60 dense sparse d)))).filter
          (fun e => collectionDocIds.contains e.1) := rfl
  have hsd : sortByScoreDesc dense = dense := List.Sorted.insertionSort_eq hd
  have hss : sortByScoreDesc sparse = sparse := List.Sorted.insertionSort_eq hs
  refine ⟨fun i h => jsFindRank_sorted hd hdn i h,
          fun i h => jsFindRank_sorted hs hsn i h, ?_, ?_, ?_⟩
  · intro d s hmem
    rw [hout] at hmem
    have h1 := List.mem_of_mem_filter hmem
    have h2 := (List.perm_insertionSort (fun a b : String × ℚ => a.2 ≥ b.2) _).subset h1
    obtain ⟨d', hd', heq⟩ := List.mem_map.mp h2
    have hd'd : d' = d := congrArg Prod.fst heq
    have hsv : rrfScoreOf 60 dense sparse d' = s := congrArg Prod.snd heq
    subst hd'd
    rw [← hsv]
    rfl
  · haveI hTot : IsTotal (String × ℚ) (fun a b => a.2 ≥ b.2) := ⟨fun a b => le_total b.2 a.2⟩
    haveI hTr : IsTrans (String × ℚ) (fun a b => a.2 ≥ b.2) :=
      ⟨fun a b c hab hbc => le_trans hbc hab⟩
    rw [hout]
    exact List.Pairwise.sublist (List.filter_sublist _) (List.sorted_insertionSort _ _)
  · intro x y hxy htie
    rw [hout] at hxy
    have hS : [x, y].Sublist (sortByScoreDesc
        ((jsSetOrder (dense.map Prod.fst ++ sparse.map Prod.fst)).map
          (fun d => (d, rrfScoreOf 60 dense sparse d)))) :=
      hxy.trans (List.filter_sublist _)
    have hkeysnd := jsSetOrder_nodup (dense.map Prod.fst ++ sparse.map Prod.fst)
    have hfninj : Function.Injective (fun d => (d, rrfScoreOf 60 dense sparse d)) := by
      intro a b hab
      exact congrArg Prod.fst hab
    have hrrfnd := List.Nodup.map hfninj hkeysnd
    have hSnd : (sortByScoreDesc
        ((jsSetOrder (dense.map Prod.fst ++ sparse.map Prod.fst)).map
          (fun d => (d, rrfScoreOf 60 dense sparse d)))).Nodup :=
      ((List.perm_insertionSort _ _).nodup_iff).mpr hrrfnd
    have hne : x ≠ y := by
      have h2 := List.Pairwise.sublist hS hSnd
      rw [List.pairwise_cons] at h2
      exact h2.1 y (by simp)
    have hxmem := (List.perm_insertionSort (fun a b : String × ℚ => a.2 ≥ b.2) _).subset
      (hS.subset (by simp : x ∈ [x, y]))
    have hymem := (List.perm_insertionSort (fun a b : String × ℚ => a.2 ≥ b.2) _).subset
      (hS.subset (by simp : y ∈ [x, y]))
    have hpair : [x, y].Sublist
        ((jsSetOrder (dense.map Prod.fst ++ sparse.map Prod.fst)).map
          (fun d => (d, rrfScoreOf 60 dense sparse d))) := by
      rcases mem_mem_ne_sublist hxmem hymem hne with hgood | hbad
      · exact hgood
      · exfalso
        have hr : (fun a b : String × ℚ => a.2 ≥ b.2) y x := ge_of_eq htie.symm
        have hrev : [y, x].Sublist (sortByScoreDesc
            ((jsSetOrder (dense.map Prod.fst ++ sparse.map Prod.fst)).map
              (fun d => (d, rrfScoreOf 60 dense sparse d)))) :=
          List.pair_sublist_insertionSort hr hbad
        have h1 := pair_sublist_findIdx_lt hS hSnd
        have h2 := pair_sublist_findIdx_lt hrev hSnd
        omega
    obtain ⟨l', hl', heq⟩ := List.sublist_map_iff.mp hpair
    rcases l' with _ | ⟨u, l''⟩
    · simp at heq
    rcases l'' with _ | ⟨v, l'''⟩
    · simp at heq
    rcases l''' with _ | ⟨w, lrest⟩
    · obtain ⟨hxu, hyv⟩ : x = (u, rrfScoreOf 60 dense sparse u) ∧
          y = (v, rrfScoreOf 60 dense sparse v) := by simpa using heq
      have hxu1 : x.1 = u := congrArg Prod.fst hxu
      have hyv1 : y.1 = v := congrArg Prod.fst hyv
      have hdecomp : jsSetOrder (dense.map Prod.fst ++ sparse.map Prod.fst)
          = dense.map Prod.fst ++ (jsSetOrder (sparse.map Prod.fst)).filter
              (fun z => decide (z ∉ dense.map Prod.fst)) :=
        jsSetOrder_append_nodup_left _ _ hdn
      rw [hdecomp] at hl'
      obtain ⟨l1, l2, hsplit, hsub1, hsub2⟩ := List.sublist_append_iff.mp hl'
      rcases l1 with _ | ⟨p, l1'⟩
      · -- both u and v are sparse-only: their fused scores cannot tie
        rw [List.nil_append] at hsplit
        subst hsplit
        have huC := hsub2.subset (by simp : u ∈ [u, v])
        have hvC := hsub2.subset (by simp : v ∈ [u, v])
        have huA : u ∉ dense.map Prod.fst := by
          have h' := List.of_mem_filter huC
          simpa using h'
        have hvA : v ∉ dense.map Prod.fst := by
          have h' := List.of_mem_filter hvC
          simpa using h'
        have huB : u ∈ sparse.map Prod.fst := mem_jsSetOrder.mp (List.mem_of_mem_filter huC)
        have hvB : v ∈ sparse.map Prod.fst := mem_jsSetOrder.mp (List.mem_of_mem_filter hvC)
        exfalso
        have hjdu : jsHas dense u = false := by
          cases hb : jsHas dense u
          · rfl
          · exact absurd ((jsHas_iff_mem_keys dense u).mp hb) huA
        have hjdv : jsHas dense v = false := by
          cases hb : jsHas dense v
          · rfl
          · exact absurd ((jsHas_iff_mem_keys dense v).mp hb) hvA
        have hjsu : jsHas sparse u = true := (jsHas_iff_mem_keys sparse u).mpr huB
        have hjsv : jsHas sparse v = true := (jsHas_iff_mem_keys sparse v).mpr hvB
        have hx2 : x.2 = 1 / (60 + (jsFindRank u sparse : ℚ)) := by
          have h0 : x.2 = rrfScoreOf 60 dense sparse u := congrArg Prod.snd hxu
          rw [h0]
          unfold rrfScoreOf
          rw [if_neg (by rw [hjdu]; simp), if_pos hjsu, zero_add]
        have hy2 : y.2 = 1 / (60 + (jsFindRank v sparse : ℚ)) := by
          have h0 : y.2 = rrfScoreOf 60 dense sparse v := congrArg Prod.snd hyv
          rw [h0]
          unfold rrfScoreOf
          rw [if_neg (by rw [hjdv]; simp), if_pos hjsv, zero_add]
        have h60u : (60 : ℚ) + (jsFindRank u sparse : ℚ) ≠ 0 := by positivity
        have h60v : (60 : ℚ) + (jsFindRank v sparse : ℚ) ≠ 0 := by positivity
        have hcast : (jsFindRank v sparse : ℚ) = (jsFindRank u sparse : ℚ) := by
          have h := htie
          rw [hx2, hy2, div_eq_div_iff h60u h60v, one_mul, one_mul] at h
          linarith
        have hrr : jsFindRank v sparse = jsFindRank u sparse := Nat.cast_inj.mp hcast
        have hfu : jsFindRank u sparse = sparse.findIdx (fun e => e.1 = u) + 1 := by
          unfold jsFindRank
          rw [hss]
        have hfv : jsFindRank v sparse = sparse.findIdx (fun e => e.1 = v) + 1 := by
          unfold jsFindRank
          rw [hss]
        have hfidx : sparse.findIdx (fun e => e.1 = u) = sparse.findIdx (fun e => e.1 = v) := by
          omega
        have hidxu : sparse.findIdx (fun e => e.1 = u) < sparse.length := by
          apply List.findIdx_lt_length_of_exists
          obtain ⟨e, he, hek⟩ := List.mem_map.mp huB
          exact ⟨e, he, decide_eq_true hek⟩
        have hidxv : sparse.findIdx (fun e => e.1 = v) < sparse.length := by
          apply List.findIdx_lt_length_of_exists
          obtain ⟨e, he, hek⟩ := List.mem_map.mp hvB
          exact ⟨e, he, decide_eq_true hek⟩
        have hgetu : (sparse.get ⟨sparse.findIdx (fun e => e.1 = u), hidxu⟩).1 = u := by
          have h' := @List.findIdx_getElem _ (fun e => decide (e.1 = u)) sparse hidxu
          simpa using h'
        have hgetv : (sparse.get ⟨sparse.findIdx (fun e => e.1 = v), hidxv⟩).1 = v := by
          have h' := @List.findIdx_getElem _ (fun e => decide (e.1 = v)) sparse hidxv
          simpa using h'
        have huv : u = v := by
          have h1 : (⟨sparse.findIdx (fun e => e.1 = u), hidxu⟩ : Fin sparse.length)
              = ⟨sparse.findIdx (fun e => e.1 = v), hidxv⟩ := Fin.ext hfidx
          rw [← hgetu, ← hgetv, h1]
        exact hne (by rw [hxu, hyv, huv])
      · rcases l1' with _ | ⟨q, l1''⟩
        · -- u is a dense key, v is sparse-only
          injection hsplit with h1 hrest
          subst h1
          subst hrest
          have hu : u ∈ dense.map Prod.fst := hsub1.subset (by simp)
          have hvC := hsub2.subset (by simp : v ∈ [v])
          have hv : v ∉ dense.map Prod.fst := by
            have h' := List.of_mem_filter hvC
            simpa using h'
          refine Or.inr (Or.inl ⟨?_, ?_⟩)
          · rw [hxu1]
            exact (jsHas_iff_mem_keys dense u).mpr hu
          · rw [hyv1]
            cases hb : jsHas dense v
            · rfl
            · exact absurd ((jsHas_iff_mem_keys dense v).mp hb) hv
        · -- both u and v are dense keys: dense insertion order is rank order
          injection hsplit with h1 hrest
          injection hrest with h2 hrest2
          subst h1
          subst h2
          obtain ⟨rfl, rfl⟩ := List.append_eq_nil.mp hrest2.symm
          have hu : u ∈ dense.map Prod.fst := hsub1.subset (by simp)
          have hv : v ∈ dense.map Prod.fst := hsub1.subset (by simp)
          refine Or.inl ⟨?_, ?_, ?_⟩
          · rw [hxu1]
            exact (jsHas_iff_mem_keys dense u).mpr hu
          · rw [hyv1]
            exact (jsHas_iff_mem_keys dense v).mpr hv
          · have hlt := pair_sublist_findIdx_lt hsub1 hdn
            rw [findIdx_map_comp, findIdx_map_comp] at hlt
            unfold jsFindRank
            rw [hsd, hxu1, hyv1]
            exact Nat.succ_lt_succ hlt
    · -- a pair can only come from a two-element list
      exfalso
      have := congrArg List.length heq
      simp at this

theorem applyRRF_spec_witness :
    jsFindRank "a" [("a", (9 : ℚ)), ("b", 5)] = 1 ∧
    List.Pairwise (fun a b : String × ℚ => a.2 ≥ b.2)
      (applyRRF none ["a", "b", "c"] [("a", 9), ("b", 5)] [("c", 7)]) :=
  ⟨(applyRRF_spec ["a", "b", "c"] [("a", 9), ("b", 5)] [("c", 7)]
      (by decide) (by decide) (by decide) (by decide)).1 0 (by decide),
   (applyRRF_spec ["a", "b", "c"] [("a", 9), ("b", 5)] [("c", 7)]
      (by decide) (by decide) (by decide) (by decide)).2.2.2.1⟩
